import Mathlib

/-!
Verification of the buffer/line-index/cursor/selection core of the `lili`
text editor (`src/editor.rs`).

The Rust code stores the document as a UTF-8 `String` and addresses it by
byte index.  We embed the text as a `List Char` and compute byte positions
through the UTF-8 size of each character, so that every byte-indexed
operation of the source (`String::insert`, `String::remove`, slicing,
`is_char_boundary`, `char_indices`) has a faithful counterpart.  The byte
primitives (`byteTake`, `byteDrop`, `removeChar`) agree with the Rust
operations on all character-boundary indices; the source panics on
non-boundary indices, which no reachable call site produces.

Terminal drawing, raw key events and the file-system navigator are outside
the embedded core, as in the specification.  `terminal::size()` is modelled
by a `height` field of the state, and the two external effects of `save`
(the path prompt and `File::create`) are passed in as oracle arguments.
-/

set_option autoImplicit false

/-- UTF-8 byte size of a character, as Rust `char::len_utf8` computes it. -/
def csize (c : Char) : Nat :=
  if c.toNat < 0x80 then 1
  else if c.toNat < 0x800 then 2
  else if c.toNat < 0x10000 then 3
  else 4

/-- Byte length of a text, Rust `String::len`. -/
def utf8Len : List Char → Nat
  | [] => 0
  | c :: cs => csize c + utf8Len cs

/-- Characters of the first `n` bytes of `s` (Rust `&s[..n]` for a boundary `n`). -/
def byteTake : List Char → Nat → List Char
  | [], _ => []
  | c :: cs, n => if n = 0 then [] else c :: byteTake cs (n - csize c)

/-- Characters after the first `n` bytes of `s` (Rust `&s[n..]` for a boundary `n`). -/
def byteDrop : List Char → Nat → List Char
  | [], _ => []
  | c :: cs, n => if n = 0 then c :: cs else byteDrop cs (n - csize c)

/-- Characters of the byte range `[a, b)` of `s` (Rust `&s[a..b]` for boundaries). -/
def byteSlice (s : List Char) (a b : Nat) : List Char :=
  byteTake (byteDrop s a) (b - a)

/-- Rust `str::is_char_boundary`. -/
def isCharBoundary : List Char → Nat → Bool
  | [], n => n = 0
  | c :: cs, n => if n = 0 then true else
      if n < csize c then false else isCharBoundary cs (n - csize c)

/-- Rust `str::char_indices`: each character paired with its byte offset. -/
def charIndicesAux : Nat → List Char → List (Nat × Char)
  | _, [] => []
  | off, c :: cs => (off, c) :: charIndicesAux (off + csize c) cs

/-- Rust `s.char_indices()` from offset 0. -/
def charIndices (s : List Char) : List (Nat × Char) :=
  charIndicesAux 0 s

/-- Rust `String::remove(n)` for a boundary `n`: drop the character starting at byte `n`. -/
def removeChar : List Char → Nat → List Char
  | [], _ => []
  | c :: cs, n => if n = 0 then cs else c :: removeChar cs (n - csize c)

/-- Rust `usize::clamp(lo, hi)` (defined for `lo ≤ hi`, the only way the source calls it). -/
def rustClamp (x lo hi : Nat) : Nat :=
  if x < lo then lo else if x > hi then hi else x

/-- Tab rendering width, `const TAB_SIZE: usize = 4` in `editor.rs`. -/
def TAB_SIZE : Nat := 4

/-- A line of the document: the byte range `start..end` of `editor.rs` (`type Line = Range<usize>`).
The `end` field is named `stop` because `end` is a Lean keyword. -/
structure Line where
  start : Nat
  stop : Nat
deriving DecidableEq, Repr, Inhabited

/-- Byte length of a line, Rust `Range::len`. -/
def Line.len (l : Line) : Nat := l.stop - l.start

/-- Cursor of `editor.rs`: line index plus byte column within the line. -/
structure Cursor where
  line : Nat
  column : Nat
deriving DecidableEq, Repr

/-- The `Editor` state of `editor.rs`.  `clipboard` holds the shared clipboard
slot as seen by this document; `height` models the terminal row count that the
source reads with `terminal::size()`.  The `active` flag (input-loop control)
is not modelled. -/
structure Editor where
  text : List Char
  lines : List Line
  scroll : Nat
  cursor : Cursor
  marker : Option Nat
  clipboard : List Char
  path : Option String
  unsaved_changes : Bool
  message : Option String
  height : Nat
deriving DecidableEq, Repr

/-- The line splitter of `editor.rs::find_lines`: scans the text once, pushing a
line at each newline, with a final line pushed unconditionally.  `pos` is the
byte offset of the remaining characters, `start` the start of the open line. -/
def findLinesAux : Nat → Nat → List Char → List Line
  | pos, start, [] => [⟨start, pos⟩]
  | pos, start, c :: cs =>
    if c = '\n' then ⟨start, pos⟩ :: findLinesAux (pos + 1) (pos + 1) cs
    else findLinesAux (pos + csize c) start cs

/-- Rust `Editor::find_lines`, as a function of the text. -/
def find_lines (text : List Char) : List Line :=
  findLinesAux 0 0 text

/-- Rust `Editor::current_line`.  The source unwraps `lines.get(cursor.line)`;
every reachable state keeps `cursor.line` in range, so the default is never hit. -/
def Editor.current_line (e : Editor) : Line :=
  e.lines.getD e.cursor.line ⟨0, 0⟩

/-- Rust `Editor::char_index`: absolute byte position of the cursor. -/
def Editor.char_index (e : Editor) : Nat :=
  e.current_line.start + e.cursor.column

/-- Rust `Editor::next_char_index`: byte position of the next character,
`text.len()` when the cursor is on the last character. -/
def Editor.next_char_index (e : Editor) : Nat :=
  match charIndices (byteDrop e.text e.char_index) with
  | _ :: (i, _) :: _ => i + e.char_index
  | _ => utf8Len e.text

/-- Rust `Editor::prev_char_index` before its `unwrap`: byte position of the
character preceding the cursor, `none` exactly when the source would panic. -/
def Editor.prev_char_index? (e : Editor) : Option Nat :=
  ((charIndices (byteTake e.text e.char_index)).getLast?).map (fun p => p.1)

/-- Rust `Editor::prev_char_index`; the panic case is mapped to 0 (unreached
from `backspace`/`move_left`, which guard it). -/
def Editor.prev_char_index (e : Editor) : Nat :=
  (e.prev_char_index?).getD 0

/-- Rust `Editor::scroll_to_cursor` with the terminal height taken from the state. -/
def Editor.scroll_to_cursor (e : Editor) : Editor :=
  let height := e.height - 2
  { e with scroll := rustClamp e.scroll (e.cursor.line - height) e.cursor.line }

/-- Rust `Editor::move_left`. -/
def Editor.move_left (e : Editor) : Editor :=
  let e₁ :=
    if 0 < e.cursor.column then
      { e with cursor := { e.cursor with column := e.prev_char_index - e.current_line.start } }
    else if 0 < e.cursor.line then
      let e' := { e with cursor := { line := e.cursor.line - 1, column := e.cursor.column } }
      { e' with cursor := { e'.cursor with column := e'.current_line.len } }
    else e
  e₁.scroll_to_cursor

/-- Rust `Editor::move_right`. -/
def Editor.move_right (e : Editor) : Editor :=
  let e₁ :=
    if e.cursor.column < e.current_line.len then
      { e with cursor := { e.cursor with column := e.next_char_index - e.current_line.start } }
    else if e.cursor.line < e.lines.length - 1 then
      { e with cursor := { line := e.cursor.line + 1, column := 0 } }
    else e
  e₁.scroll_to_cursor

/-- The loop of Rust `Editor::ensure_char_boundary`: decrement the column until
`start + column` is a character boundary.  (At column 0 the source's loop can
only exit, since a line start is a boundary in every reachable state.) -/
def ensureBoundaryAux (text : List Char) (start : Nat) : Nat → Nat
  | 0 => 0
  | n + 1 => if isCharBoundary text (start + (n + 1)) then n + 1 else ensureBoundaryAux text start n

/-- Rust `Editor::ensure_char_boundary`. -/
def Editor.ensure_char_boundary (e : Editor) : Editor :=
  { e with cursor :=
    { e.cursor with column := ensureBoundaryAux e.text e.current_line.start e.cursor.column } }

/-- Rust `Editor::move_up`. -/
def Editor.move_up (e : Editor) (lines : Nat) : Editor :=
  let physical_column :=
    (byteSlice e.text e.current_line.start (e.current_line.start + e.cursor.column)).length
  let e₁ := { e with cursor := { line := e.cursor.line - lines, column := e.cursor.column } }
  let e₂ := { e₁ with cursor := { e₁.cursor with column := min physical_column e₁.current_line.len } }
  (e₂.ensure_char_boundary).scroll_to_cursor

/-- Rust `Editor::move_down`. -/
def Editor.move_down (e : Editor) (lines : Nat) : Editor :=
  let physical_column :=
    (byteSlice e.text e.current_line.start (e.current_line.start + e.cursor.column)).length
  let e₁ := { e with cursor :=
    { line := min (e.cursor.line + lines) (e.lines.length - 1), column := e.cursor.column } }
  let e₂ := { e₁ with cursor := { e₁.cursor with column := min physical_column e₁.current_line.len } }
  (e₂.ensure_char_boundary).scroll_to_cursor

/-- Rust `Editor::move_home`. -/
def Editor.move_home (e : Editor) : Editor :=
  { e with cursor := { e.cursor with column := 0 } }

/-- Rust `Editor::move_end`. -/
def Editor.move_end (e : Editor) : Editor :=
  ({ e with cursor := { e.cursor with column := e.current_line.len } }).ensure_char_boundary

/-- Rust `Editor::move_to_byte`: scan all lines, updating the cursor at every
line whose inclusive range `start..=end` contains `pos` (the last one wins). -/
def Editor.move_to_byte (e : Editor) (pos : Nat) : Editor :=
  { e with cursor := (e.lines.enum.foldl
      (fun cur p => if p.2.start ≤ pos ∧ pos ≤ p.2.stop
        then { line := p.1, column := pos - p.2.start } else cur)
      e.cursor) }

/-- Rust `Editor::set_marker`. -/
def Editor.set_marker (e : Editor) : Editor :=
  if e.marker = none then { e with marker := some e.char_index } else e

/-- Rust `Editor::insert_char`. -/
def Editor.insert_char (e : Editor) (ch : Char) : Editor :=
  let e₁ := { e with unsaved_changes := true }
  let e₂ := { e₁ with text := byteTake e₁.text e₁.char_index ++ ch :: byteDrop e₁.text e₁.char_index }
  let e₃ := { e₂ with lines := find_lines e₂.text }
  e₃.move_right

/-- Rust `Editor::backspace`. -/
def Editor.backspace (e : Editor) : Editor :=
  if 0 < e.char_index then
    let e₁ := e.move_left
    let e₂ := { e₁ with text := removeChar e₁.text e₁.char_index }
    { e₂ with lines := find_lines e₂.text }
  else e

/-- Rust `Editor::delete`. -/
def Editor.delete (e : Editor) : Editor :=
  if e.char_index < utf8Len e.text then
    let e₁ := { e with text := removeChar e.text e.char_index }
    { e₁ with lines := find_lines e₁.text }
  else e

/-- Rust `Editor::selection`. -/
def Editor.selection (e : Editor) : Option (Nat × Nat) :=
  e.marker.map (fun m => (min m e.char_index, max m e.char_index))

/-- Rust `Editor::selection_or_line`. -/
def Editor.selection_or_line (e : Editor) : Nat × Nat :=
  (e.selection).getD (e.current_line.start, e.current_line.stop)

/-- Rust `Editor::copy`. -/
def Editor.copy (e : Editor) : Editor :=
  let range := e.selection_or_line
  let t := byteSlice e.text range.1 range.2
  let t := if e.marker = none then t ++ ['\n'] else t
  { e with clipboard := t }

/-- Rust `Editor::cut`. -/
def Editor.cut (e : Editor) : Editor :=
  let range := e.selection_or_line
  let start := range.1
  let stop := range.2
  let t := byteSlice e.text start stop
  let t := if e.marker = none then t ++ ['\n'] else t
  let stop := if e.marker = none then stop + 1 else stop
  let stop := min stop (utf8Len e.text)
  let e₁ := { e with clipboard := t }
  let e₂ := { e₁ with text := byteTake e₁.text start ++ byteDrop e₁.text stop }
  let e₃ := { e₂ with lines := find_lines e₂.text }
  let e₄ := e₃.move_to_byte start
  { e₄ with marker := none }

/-- Rust `Editor::paste`. -/
def Editor.paste (e : Editor) : Editor :=
  let e₀ := { e with unsaved_changes := true }
  let cursor := e₀.char_index
  let new_text := e₀.clipboard
  let end_pos := cursor + utf8Len new_text
  let e₁ := { e₀ with text := byteTake e₀.text cursor ++ new_text ++ byteDrop e₀.text cursor }
  let e₂ := { e₁ with lines := find_lines e₁.text }
  let e₃ := e₂.move_to_byte end_pos
  { e₃ with marker := none }

/-- Rust `Editor::physical_column`. -/
def Editor.physical_column (e : Editor) : Nat :=
  let start := e.current_line.start
  let stop := e.char_index
  let preceding_chars := (byteSlice e.text start stop).length
  let preceding_tabs := ((byteSlice e.text start stop).filter (fun c => c = '\t')).length
  preceding_chars + preceding_tabs * (TAB_SIZE - 1)

/-- Rust `Editor::save`.  Its two external effects are passed as oracles:
`prompt_result` is the result of `read_line("Enter path: ")` already joined
with the current directory (consulted only when `path` is `None`), and
`create_ok` tells whether `File::create` succeeds.  The second component of
the result records the file write performed, if any (path and bytes written);
the source appends the io error text to the failure message, which is not
modelled. -/
def Editor.save (e : Editor) (prompt_result : Option String) (create_ok : Bool) :
    Editor × Option (String × List Char) :=
  let pathAndNew : Option String × Bool :=
    match e.path with
    | none => (prompt_result, true)
    | some p => (some p, false)
  let filename_new := pathAndNew.2
  match pathAndNew.1 with
  | none => ({ e with path := none }, none)
  | some p =>
    if create_ok then
      ({ e with path := some p,
                message := some ("Saved file as '" ++ p ++ "'"),
                unsaved_changes := false }, some (p, e.text))
    else
      ({ e with path := if filename_new then none else some p,
                message := some ("Could not save file as '" ++ p ++ "'") }, none)

/-- Consistency of the line index with the text: the index is exactly what
`find_lines` rebuilds.  Every mutation of the source re-establishes this. -/
def LinesOK (e : Editor) : Prop :=
  e.lines = find_lines e.text

/-- The cursor invariant of the specification: the line index is in range, the
column does not exceed the current line's byte length, and the cursor's
absolute byte position is a UTF-8 character boundary. -/
def CursorInv (e : Editor) : Prop :=
  e.cursor.line < e.lines.length ∧
  e.cursor.column ≤ e.current_line.len ∧
  isCharBoundary e.text e.char_index = true

/-- Validity of the selection marker: inside the text and on a character boundary. -/
def markerOK (e : Editor) : Bool :=
  match e.marker with
  | none => true
  | some m => decide (m ≤ utf8Len e.text) && isCharBoundary e.text m

/-- Well-formed editor state. -/
def WF (e : Editor) : Prop :=
  LinesOK e ∧ CursorInv e ∧ markerOK e = true

instance (e : Editor) : Decidable (LinesOK e) := by
  unfold LinesOK; infer_instance

instance (e : Editor) : Decidable (CursorInv e) := by
  unfold CursorInv; infer_instance

instance (e : Editor) : Decidable (WF e) := by
  unfold WF; infer_instance

/-- Editor state over a given text with a freshly built line index, the cursor
at `(li, co)` and marker `m`; no pending message, nothing saved yet. -/
def mkEditor (t : List Char) (li co : Nat) (m : Option Nat) : Editor :=
  { text := t, lines := find_lines t, scroll := 0,
    cursor := { line := li, column := co }, marker := m, clipboard := [],
    path := none, unsaved_changes := false, message := none, height := 10 }

/-- Document "a", cursor at the start, no marker. -/
def edA : Editor := mkEditor ['a'] 0 0 none

/-- Document "ab", cursor between the characters, no marker, no unsaved changes. -/
def edAB : Editor := mkEditor ['a', 'b'] 0 1 none

/-- Document "a<tab>b", cursor at byte column 3 (end of line). -/
def edTab : Editor := mkEditor ['a', '\t', 'b'] 0 3 none

/-- Document "a<tab>b", cursor at byte column 2 (immediately after the tab). -/
def edTab2 : Editor := mkEditor ['a', '\t', 'b'] 0 2 none

/-- Document "ab", marker anchored at byte 0, cursor at byte 1. -/
def edMark : Editor := mkEditor ['a', 'b'] 0 1 (some 0)

/-- Document "ab\néé", cursor at the end of the first line. -/
def edEE : Editor := mkEditor ['a', 'b', '\n', 'é', 'é'] 0 2 none

/-- Document "hello world", marker at byte 0, cursor at byte 5 (§8 scenario). -/
def edHello : Editor := mkEditor "hello world".toList 0 5 (some 0)

/-- Document "ab\ncd", cursor inside the first line. -/
def edABCD : Editor := mkEditor ['a', 'b', '\n', 'c', 'd'] 0 1 none

/-- The destination-column rule as the specification words it (`move_up`/`move_down`
set "the byte column to the ... prefix of the destination line whose character
count does not exceed the saved count"): the byte length of the longest such
prefix of the destination line. -/
def specTargetColumn (line : List Char) (savedCount : Nat) : Nat :=
  utf8Len (line.take savedCount)

/-- Shape of a well-formed line index for `text`, starting at byte `start`:
the list is nonempty; each line starts where promised and ends no earlier;
every line boundary is a UTF-8 character boundary; a non-final line's `stop`
points at a newline byte (excluded from the line), and no newline starts
inside a line; consecutive lines are adjacent (`next.start = stop + 1`); the
final line ends at the byte length of the text.  `find_lines` establishes
this shape from `start = 0`. -/
inductive ChainFrom (text : List Char) : Nat → List Line → Prop
  | last (start : Nat) (l : Line) :
      l.start = start → l.stop = utf8Len text → start ≤ l.stop →
      isCharBoundary text l.start = true → isCharBoundary text l.stop = true →
      (∀ m, l.start ≤ m → m < l.stop → isCharBoundary text m = true →
        (byteDrop text m).head? ≠ some '\n') →
      ChainFrom text start [l]
  | cons (start : Nat) (l : Line) (L : List Line) :
      l.start = start → start ≤ l.stop →
      (byteDrop text l.stop).head? = some '\n' →
      isCharBoundary text l.start = true → isCharBoundary text l.stop = true →
      (∀ m, l.start ≤ m → m < l.stop → isCharBoundary text m = true →
        (byteDrop text m).head? ≠ some '\n') →
      ChainFrom text (l.stop + 1) L →
      ChainFrom text start (l :: L)

/-- Marker bookkeeping of the edit operations: `scroll_to_cursor` never touches it. -/
@[simp] theorem marker_scroll_to_cursor (e : Editor) : (e.scroll_to_cursor).marker = e.marker := rfl

/-- Marker bookkeeping: `move_right` never touches the marker. -/
@[simp] theorem marker_move_right (e : Editor) : (e.move_right).marker = e.marker := by
  unfold Editor.move_right Editor.scroll_to_cursor
  dsimp only
  split
  · rfl
  · split <;> rfl

/-- Marker bookkeeping: `move_left` never touches the marker. -/
@[simp] theorem marker_move_left (e : Editor) : (e.move_left).marker = e.marker := by
  unfold Editor.move_left Editor.scroll_to_cursor
  dsimp only
  split
  · rfl
  · split <;> rfl

/-- C2. The specification claims every mutating operation (insert_char,
backspace, delete, cut, paste) sets the unsaved-changes flag.  In the code only
`insert_char` and `paste` set it: on the document "ab" with no unsaved changes,
`backspace`, `delete` and `cut` each change the text yet leave the flag false. -/
theorem backspace_delete_cut_leave_unsaved_flag :
    WF edAB ∧ edAB.unsaved_changes = false ∧
    (edAB.backspace).text ≠ edAB.text ∧ (edAB.backspace).unsaved_changes = false ∧
    (edAB.delete).text ≠ edAB.text ∧ (edAB.delete).unsaved_changes = false ∧
    (edAB.cut).text ≠ edAB.text ∧ (edAB.cut).unsaved_changes = false ∧
    (edAB.insert_char 'x').unsaved_changes = true ∧
    (edAB.paste).unsaved_changes = true := by decide

/-- C3 (counterexample). On the line "a\tb" with the cursor at byte column 3,
`physical_column` returns 6 (three characters, one of them a tab adding
`TAB_SIZE - 1 = 3` columns), not 4 as the specification claims. -/
theorem physical_column_tab_not_four :
    WF edTab ∧ edTab.physical_column ≠ 4 := by decide

/-- C3 (amended). On the line "a\tb" with tab width 4, `physical_column` is 6 at
byte column 3 (after 'b', the end of the line) and 5 at byte column 2 (the
position immediately after the tab). -/
theorem physical_column_tab_values :
    edTab.physical_column = 6 ∧ edTab2.physical_column = 5 := by decide

/-- C4 (counterexample). An unmodified edit does not clear the marker: after
`insert_char` on a state with an active marker, `selection()` is still `some`. -/
theorem insert_char_keeps_selection :
    WF edMark ∧ (edMark.insert_char 'x').selection ≠ none := by decide

/-- C4 (amended). The edit operations leave the marker exactly alone:
`insert_char`, `backspace` and `delete` preserve it unchanged, while `cut` and
`paste` clear it. -/
theorem marker_after_edit_ops (e : Editor) (c : Char) :
    (e.insert_char c).marker = e.marker ∧
    (e.backspace).marker = e.marker ∧
    (e.delete).marker = e.marker ∧
    (e.cut).marker = none ∧
    (e.paste).marker = none := by
  refine ⟨?_, ?_, ?_, rfl, rfl⟩
  · unfold Editor.insert_char
    simp [marker_move_right]
  · unfold Editor.backspace
    split
    · simp [marker_move_left]
    · rfl
  · unfold Editor.delete
    split <;> rfl

/-- C1 (counterexample). Cutting the final line of a document that does not end
in a newline and pasting it back appends a newline: on the document "a" the
round trip produces "a\n". -/
theorem cut_paste_adds_newline_on_unterminated_line :
    WF edA ∧ ((edA.cut).paste).text ≠ edA.text := by decide

/-- C5 (counterexample). `move_down` onto the line "éé" with a saved character
count of 2 puts the byte column at 2 (the saved count used directly as a byte
offset, already a boundary), not at the byte length 4 of the two-character
prefix that the specification's rule describes. -/
theorem move_down_column_not_prefix_rule :
    WF edEE ∧ (edEE.move_down 1).cursor.line = 1 ∧
    (edEE.move_down 1).cursor.column = 2 ∧
    specTargetColumn (byteSlice edEE.text 3 7) ((byteSlice edEE.text 0 2).length) = 4 ∧
    (edEE.move_down 1).cursor.column ≠
      specTargetColumn (byteSlice edEE.text 3 7) ((byteSlice edEE.text 0 2).length) := by decide

/-- Every character occupies at least one byte. -/
theorem csize_pos (c : Char) : 0 < csize c := by
  unfold csize
  split
  · exact Nat.one_pos
  · split
    · exact Nat.two_pos
    · split
      · exact Nat.zero_lt_succ 2
      · exact Nat.zero_lt_succ 3

/-- A newline is a single byte. -/
theorem csize_newline : csize '\n' = 1 := by decide

@[simp] theorem utf8Len_nil : utf8Len [] = 0 := rfl

@[simp] theorem utf8Len_cons (c : Char) (cs : List Char) :
    utf8Len (c :: cs) = csize c + utf8Len cs := rfl

@[simp] theorem utf8Len_append (p q : List Char) :
    utf8Len (p ++ q) = utf8Len p + utf8Len q := by
  induction p with
  | nil => simp
  | cons c p ih => simp [ih]; omega

@[simp] theorem byteTake_zero (s : List Char) : byteTake s 0 = [] := by
  cases s <;> simp [byteTake]

@[simp] theorem byteDrop_zero (s : List Char) : byteDrop s 0 = s := by
  cases s <;> simp [byteDrop]

@[simp] theorem byteTake_nil (n : Nat) : byteTake [] n = [] := rfl

@[simp] theorem byteDrop_nil (n : Nat) : byteDrop [] n = [] := rfl

/-- Splitting a text at any byte position recovers the text. -/
theorem byteTake_append_byteDrop (s : List Char) (n : Nat) :
    byteTake s n ++ byteDrop s n = s := by
  induction s generalizing n with
  | nil => simp
  | cons c cs ih =>
    by_cases h : n = 0
    · simp [h]
    · simp [byteTake, byteDrop, h, ih]

/-- Taking `utf8Len p + m` bytes of `p ++ q` takes all of `p` and `m` bytes of `q`. -/
theorem byteTake_utf8Len_append (p q : List Char) (m : Nat) :
    byteTake (p ++ q) (utf8Len p + m) = p ++ byteTake q m := by
  induction p with
  | nil => simp
  | cons c p ih =>
    have hc := csize_pos c
    simp only [List.cons_append, byteTake, utf8Len_cons, List.append_eq]
    rw [if_neg (by omega)]
    have h : csize c + utf8Len p + m - csize c = utf8Len p + m := by omega
    rw [h, ih]

/-- Dropping `utf8Len p + m` bytes of `p ++ q` drops all of `p` and `m` bytes of `q`. -/
theorem byteDrop_utf8Len_append (p q : List Char) (m : Nat) :
    byteDrop (p ++ q) (utf8Len p + m) = byteDrop q m := by
  induction p with
  | nil => simp
  | cons c p ih =>
    have hc := csize_pos c
    simp only [List.cons_append, byteDrop, utf8Len_cons, List.append_eq]
    rw [if_neg (by omega)]
    have h : csize c + utf8Len p + m - csize c = utf8Len p + m := by omega
    rw [h, ih]

/-- Taking exactly the bytes of a prefix yields that prefix. -/
theorem byteTake_append_len (p q : List Char) : byteTake (p ++ q) (utf8Len p) = p := by
  have := byteTake_utf8Len_append p q 0
  simpa using this

/-- Dropping exactly the bytes of a prefix yields the suffix. -/
theorem byteDrop_append_len (p q : List Char) : byteDrop (p ++ q) (utf8Len p) = q := by
  have := byteDrop_utf8Len_append p q 0
  simpa using this

/-- Taking at least the whole byte length takes everything. -/
theorem byteTake_of_len_le (s : List Char) (n : Nat) (h : utf8Len s ≤ n) :
    byteTake s n = s := by
  induction s generalizing n with
  | nil => simp
  | cons c cs ih =>
    have hc := csize_pos c
    simp only [utf8Len_cons] at h
    simp only [byteTake]
    rw [if_neg (by omega)]
    rw [ih (n - csize c) (by omega)]

/-- Dropping at least the whole byte length leaves nothing. -/
theorem byteDrop_of_len_le (s : List Char) (n : Nat) (h : utf8Len s ≤ n) :
    byteDrop s n = [] := by
  induction s generalizing n with
  | nil => simp
  | cons c cs ih =>
    have hc := csize_pos c
    simp only [utf8Len_cons] at h
    simp only [byteDrop]
    rw [if_neg (by omega)]
    exact ih (n - csize c) (by omega)

@[simp] theorem isCharBoundary_zero (s : List Char) : isCharBoundary s 0 = true := by
  cases s <;> simp [isCharBoundary]

/-- The end of the text is a character boundary. -/
theorem isCharBoundary_utf8Len (s : List Char) : isCharBoundary s (utf8Len s) = true := by
  induction s with
  | nil => simp [isCharBoundary]
  | cons c cs ih =>
    have hc := csize_pos c
    simp only [isCharBoundary, utf8Len_cons]
    rw [if_neg (by omega), if_neg (by omega)]
    simpa using ih

/-- Boundaries lie inside the text. -/
theorem isCharBoundary_le (s : List Char) (n : Nat) (h : isCharBoundary s n = true) :
    n ≤ utf8Len s := by
  induction s generalizing n with
  | nil => simp [isCharBoundary] at h; omega
  | cons c cs ih =>
    by_cases h0 : n = 0
    · simp [h0]
    · simp only [isCharBoundary, if_neg h0] at h
      by_cases hlt : n < csize c
      · rw [if_pos hlt] at h; exact absurd h (by simp)
      · rw [if_neg hlt] at h
        have := ih (n - csize c) h
        simp only [utf8Len_cons]
        omega

/-- Characterization of boundaries of a concatenation: either a boundary of the
prefix, or past the prefix at a boundary of the suffix. -/
theorem isCharBoundary_append_iff (p q : List Char) (n : Nat) :
    isCharBoundary (p ++ q) n = true ↔
    (isCharBoundary p n = true ∨
      (utf8Len p ≤ n ∧ isCharBoundary q (n - utf8Len p) = true)) := by
  induction p generalizing n with
  | nil =>
    by_cases h0 : n = 0
    · simp [h0]
    · simp only [List.nil_append, utf8Len_nil, Nat.zero_le, Nat.sub_zero, true_and]
      constructor
      · intro h; exact Or.inr h
      · intro h
        rcases h with h | h
        · simp [isCharBoundary, h0] at h
        · exact h
  | cons c p ih =>
    by_cases h0 : n = 0
    · simp [h0]
    · have hc := csize_pos c
      by_cases hlt : n < csize c
      · simp only [List.cons_append, isCharBoundary, if_neg h0, if_pos hlt, utf8Len_cons,
          List.append_eq]
        constructor
        · intro h; exact absurd h (by simp)
        · intro h
          rcases h with h | ⟨h1, _⟩
          · exact h
          · omega
      · simp only [List.cons_append, isCharBoundary, if_neg h0, if_neg hlt, utf8Len_cons,
          List.append_eq]
        rw [ih (n - csize c)]
        have harith : n - csize c - utf8Len p = n - (csize c + utf8Len p) := by omega
        rw [harith]
        constructor
        · intro h
          rcases h with h | ⟨h1, h2⟩
          · exact Or.inl h
          · exact Or.inr ⟨by omega, h2⟩
        · intro h
          rcases h with h | ⟨h1, h2⟩
          · exact Or.inl h
          · exact Or.inr ⟨by omega, h2⟩

/-- A boundary of the suffix, shifted past the prefix, is a boundary of the whole. -/
theorem isCharBoundary_append_right (p q : List Char) (m : Nat)
    (h : isCharBoundary q m = true) :
    isCharBoundary (p ++ q) (utf8Len p + m) = true := by
  rw [isCharBoundary_append_iff]
  exact Or.inr ⟨by omega, by simpa using h⟩

/-- The junction of a concatenation is a boundary. -/
theorem isCharBoundary_append_len (p q : List Char) :
    isCharBoundary (p ++ q) (utf8Len p) = true := by
  have := isCharBoundary_append_right p q 0 (by simp)
  simpa using this

/-- A boundary in a cons either is 0 or clears the first character. -/
theorem isCharBoundary_cons_cases (c : Char) (cs : List Char) (k : Nat)
    (h : isCharBoundary (c :: cs) k = true) : k = 0 ∨ csize c ≤ k := by
  by_cases h0 : k = 0
  · exact Or.inl h0
  · simp only [isCharBoundary, if_neg h0] at h
    by_cases hlt : k < csize c
    · rw [if_pos hlt] at h; exact absurd h (by simp)
    · exact Or.inr (by omega)

/-- On a boundary, `byteTake` has exactly that many bytes. -/
theorem utf8Len_byteTake (s : List Char) (n : Nat) (h : isCharBoundary s n = true) :
    utf8Len (byteTake s n) = n := by
  induction s generalizing n with
  | nil => simp [isCharBoundary] at h; simp [h]
  | cons c cs ih =>
    by_cases h0 : n = 0
    · simp [h0]
    · have hc := csize_pos c
      simp only [isCharBoundary, if_neg h0] at h
      by_cases hlt : n < csize c
      · rw [if_pos hlt] at h; exact absurd h (by simp)
      · rw [if_neg hlt] at h
        simp only [byteTake, if_neg h0, utf8Len_cons]
        rw [ih (n - csize c) h]
        omega

/-- Removing the character that follows a prefix. -/
theorem removeChar_append_len (p : List Char) (c : Char) (q : List Char) :
    removeChar (p ++ c :: q) (utf8Len p) = p ++ q := by
  induction p with
  | nil => simp [removeChar]
  | cons d p ih =>
    have hd := csize_pos d
    simp only [List.cons_append, removeChar, utf8Len_cons, List.append_eq]
    rw [if_neg (by omega)]
    have h : csize d + utf8Len p - csize d = utf8Len p := by omega
    rw [h, ih]

@[simp] theorem charIndicesAux_nil (off : Nat) : charIndicesAux off [] = [] := rfl

/-- `char_indices` of a concatenation splits at the prefix length. -/
theorem charIndicesAux_append (off : Nat) (p q : List Char) :
    charIndicesAux off (p ++ q) =
      charIndicesAux off p ++ charIndicesAux (off + utf8Len p) q := by
  induction p generalizing off with
  | nil => simp
  | cons c p ih =>
    simp only [List.cons_append, charIndicesAux, utf8Len_cons, List.append_eq, ih]
    have h : off + csize c + utf8Len p = off + (csize c + utf8Len p) := by omega
    rw [h]

/-- The last entry of `char_indices` of `q ++ [c]` is `c` at offset `utf8Len q`. -/
theorem charIndices_getLast_concat (q : List Char) (c : Char) :
    (charIndices (q ++ [c])).getLast? = some (utf8Len q, c) := by
  unfold charIndices
  rw [charIndicesAux_append]
  simp [charIndicesAux]

/-- The line scanner always produces at least one line. -/
theorem findLinesAux_ne_nil (cs : List Char) : ∀ pos start, findLinesAux pos start cs ≠ [] := by
  induction cs with
  | nil => intro pos start; simp [findLinesAux]
  | cons c cs ih =>
    intro pos start
    by_cases hc : c = '\n'
    · simp [findLinesAux, hc]
    · simp only [findLinesAux, if_neg hc]
      exact ih (pos + csize c) start

/-- The output of `findLinesAux pos start cs`, with `cs` the text after byte
position `pos` and `start ≤ pos` the start of the open line (whose scanned part
`[start, pos)` contains no newline), is a well-formed chain. -/
theorem chainFrom_findLinesAux (cs : List Char) :
    ∀ (p text : List Char) (pos start : Nat),
      text = p ++ cs → utf8Len p = pos → start ≤ pos →
      isCharBoundary text start = true →
      (∀ m, start ≤ m → m < pos → isCharBoundary text m = true →
        (byteDrop text m).head? ≠ some '\n') →
      ChainFrom text start (findLinesAux pos start cs) := by
  induction cs with
  | nil =>
    intro p text pos start htext hlen hle hb hnonl
    have htl : utf8Len text = pos := by subst htext; simpa using hlen
    simp only [findLinesAux]
    exact ChainFrom.last start ⟨start, pos⟩ rfl (by simpa using htl.symm) hle
      (by simpa using hb) (by simp [htl.symm, isCharBoundary_utf8Len]) (by simpa using hnonl)
  | cons c cs ih =>
    intro p text pos start htext hlen hle hb hnonl
    have hdrop : byteDrop text pos = c :: cs := by
      subst htext; rw [← hlen]; exact byteDrop_append_len p (c :: cs)
    by_cases hc : c = '\n'
    · subst hc
      simp only [findLinesAux, if_pos rfl]
      have hbstop : isCharBoundary text pos = true := by
        subst htext; rw [← hlen]; exact isCharBoundary_append_len p ('\n' :: cs)
      have hbnext : isCharBoundary text (pos + 1) = true := by
        subst htext
        have h1 : isCharBoundary ('\n' :: cs) 1 = true := by
          simp [isCharBoundary, csize_newline]
        have := isCharBoundary_append_right p ('\n' :: cs) 1 h1
        rwa [hlen] at this
      refine ChainFrom.cons start ⟨start, pos⟩ _ rfl hle ?_ (by simpa using hb)
        (by simpa using hbstop) (by simpa using hnonl) ?_
      · simpa using congrArg List.head? hdrop
      · refine ih (p ++ ['\n']) text (pos + 1) (pos + 1) ?_ ?_ (Nat.le_refl _) hbnext ?_
        · subst htext; simp
        · simp [csize_newline, hlen]
        · intro m h1 h2; omega
    · simp only [findLinesAux, if_neg hc]
      refine ih (p ++ [c]) text (pos + csize c) start ?_ ?_ ?_ hb ?_
      · subst htext; simp
      · simp [hlen]
      · have := csize_pos c; omega
      · intro m h1 h2 hbm
        rcases Nat.lt_or_ge m pos with hmlt | hmge
        · exact hnonl m h1 hmlt hbm
        · rcases Nat.eq_or_lt_of_le hmge with heq | hmgt
          · rw [← heq, hdrop]
            simp only [List.head?_cons, ne_eq, Option.some.injEq]
            exact fun hcn => hc hcn
          · exfalso
            rw [htext, isCharBoundary_append_iff] at hbm
            rcases hbm with hbp | ⟨hge, hbq⟩
            · have := isCharBoundary_le p m hbp; omega
            · rcases isCharBoundary_cons_cases c cs (m - utf8Len p) hbq with h0 | hcs
              · omega
              · omega

/-- The rebuilt line index of any text is a well-formed chain from byte 0. -/
theorem find_lines_chain (text : List Char) : ChainFrom text 0 (find_lines text) := by
  refine chainFrom_findLinesAux text [] text 0 0 rfl rfl (Nat.le_refl _) (by simp) ?_
  intro m h1 h2; omega

/-- A chain is nonempty. -/
theorem chain_ne_nil {t : List Char} {s : Nat} {L : List Line} (h : ChainFrom t s L) :
    L ≠ [] := by
  cases h <;> simp

/-- The first line of a chain starts at the chain's start. -/
theorem chain_head_start {t : List Char} {s : Nat} {l : Line} {L : List Line}
    (h : ChainFrom t s (l :: L)) : l.start = s := by
  cases h with
  | last _ _ h1 _ _ _ _ _ => exact h1
  | cons _ _ _ h1 _ _ _ _ _ _ => exact h1

/-- The last line of a chain ends at the byte length of the text. -/
theorem chain_getLast_stop {t : List Char} {s : Nat} {L : List Line} (h : ChainFrom t s L) :
    ∀ l, L.getLast? = some l → l.stop = utf8Len t := by
  induction h with
  | last start l' h1 h2 h3 h4 h5 h6 =>
    intro l hl
    simp only [List.getLast?_singleton, Option.some.injEq] at hl
    rw [← hl]; exact h2
  | cons start l' L' h1 h2 h3 h4 h5 h6 h7 ih =>
    intro l hl
    cases L' with
    | nil => exact absurd rfl (chain_ne_nil h7)
    | cons b bs =>
      rw [List.getLast?_cons_cons] at hl
      exact ih l hl

/-- Per-line facts of a chain: ordered endpoints, both of them character
boundaries, within the text. -/
theorem chain_elem {t : List Char} {s : Nat} {L : List Line} (h : ChainFrom t s L) :
    ∀ l ∈ L, l.start ≤ l.stop ∧ isCharBoundary t l.start = true ∧
      isCharBoundary t l.stop = true ∧ l.stop ≤ utf8Len t := by
  induction h with
  | last start l' h1 h2 h3 h4 h5 h6 =>
    intro l hl
    simp only [List.mem_singleton] at hl
    subst hl
    exact ⟨by omega, h4, h5, by rw [h2]⟩
  | cons start l' L' h1 h2 h3 h4 h5 h6 h7 ih =>
    intro l hl
    rcases List.mem_cons.mp hl with rfl | hmem
    · exact ⟨by omega, h4, h5, isCharBoundary_le t l.stop h5⟩
    · exact ih l hmem

/-- No newline character starts strictly inside a chain line. -/
theorem chain_elem_no_newline {t : List Char} {s : Nat} {L : List Line} (h : ChainFrom t s L) :
    ∀ l ∈ L, ∀ m, l.start ≤ m → m < l.stop → isCharBoundary t m = true →
      (byteDrop t m).head? ≠ some '\n' := by
  induction h with
  | last start l' h1 h2 h3 h4 h5 h6 =>
    intro l hl
    simp only [List.mem_singleton] at hl
    subst hl
    exact h6
  | cons start l' L' h1 h2 h3 h4 h5 h6 h7 ih =>
    intro l hl
    rcases List.mem_cons.mp hl with rfl | hmem
    · exact h6
    · exact ih l hmem

/-- Every line of a chain starts at or after the chain's start. -/
theorem chain_le_start {t : List Char} {s : Nat} {L : List Line} (h : ChainFrom t s L) :
    ∀ i l, L.get? i = some l → s ≤ l.start := by
  induction h with
  | last start l' h1 h2 h3 h4 h5 h6 =>
    intro i l hl
    cases i with
    | zero => simp only [List.get?_cons_zero, Option.some.injEq] at hl; subst hl; rw [h1]
    | succ i => simp at hl
  | cons start l' L' h1 h2 h3 h4 h5 h6 h7 ih =>
    intro i l hl
    cases i with
    | zero => simp only [List.get?_cons_zero, Option.some.injEq] at hl; subst hl; rw [h1]
    | succ i =>
      rw [List.get?_cons_succ] at hl
      have := ih i l hl
      omega

/-- Consecutive chain lines are adjacent, separated by the newline byte at the
stop of the earlier line. -/
theorem chain_adjacent {t : List Char} {s : Nat} {L : List Line} (h : ChainFrom t s L) :
    ∀ i li lj, L.get? i = some li → L.get? (i + 1) = some lj →
      lj.start = li.stop + 1 ∧ (byteDrop t li.stop).head? = some '\n' := by
  induction h with
  | last start l' h1 h2 h3 h4 h5 h6 =>
    intro i li lj hi hj
    cases i <;> simp at hj
  | cons start l' L' h1 h2 h3 h4 h5 h6 h7 ih =>
    intro i li lj hi hj
    cases i with
    | zero =>
      simp only [List.get?_cons_zero, Option.some.injEq] at hi
      subst hi
      rw [List.get?_cons_succ] at hj
      cases L' with
      | nil => simp at hj
      | cons b bs =>
        have hb0 : b.start = l'.stop + 1 := chain_head_start h7
        simp only [List.get?_cons_zero, Option.some.injEq] at hj
        subst hj
        exact ⟨hb0, h3⟩
    | succ i =>
      rw [List.get?_cons_succ] at hi
      rw [List.get?_cons_succ] at hj
      exact ih i li lj hi hj

/-- Chain lines with smaller index end strictly before later lines start. -/
theorem chain_disjoint {t : List Char} {s : Nat} {L : List Line} (h : ChainFrom t s L) :
    ∀ i j li lj, L.get? i = some li → L.get? j = some lj → i < j → li.stop < lj.start := by
  induction h with
  | last start l' h1 h2 h3 h4 h5 h6 =>
    intro i j li lj hi hj hij
    cases j with
    | zero => omega
    | succ j => simp at hj
  | cons start l' L' h1 h2 h3 h4 h5 h6 h7 ih =>
    intro i j li lj hi hj hij
    cases j with
    | zero => omega
    | succ j =>
      rw [List.get?_cons_succ] at hj
      cases i with
      | zero =>
        simp only [List.get?_cons_zero, Option.some.injEq] at hi
        subst hi
        have := chain_le_start h7 j lj hj
        omega
      | succ i =>
        rw [List.get?_cons_succ] at hi
        exact ih i j li lj hi hj (by omega)

/-- Every byte position of the text, up to and including the length, is covered
by a chain line's closed interval. -/
theorem chain_cover {t : List Char} {s : Nat} {L : List Line} (h : ChainFrom t s L) :
    ∀ pos, s ≤ pos → pos ≤ utf8Len t →
      ∃ i l, L.get? i = some l ∧ l.start ≤ pos ∧ pos ≤ l.stop := by
  induction h with
  | last start l h1 h2 h3 h4 h5 h6 =>
    intro pos hp1 hp2
    exact ⟨0, l, by simp, by rw [h1]; exact hp1, by rw [h2]; exact hp2⟩
  | cons start l L' h1 h2 h3 h4 h5 h6 h7 ih =>
    intro pos hp1 hp2
    by_cases hple : pos ≤ l.stop
    · exact ⟨0, l, by simp, by rw [h1]; exact hp1, hple⟩
    · obtain ⟨i, l', hi, ha, hb⟩ := ih pos (by omega) hp2
      exact ⟨i + 1, l', by rw [List.get?_cons_succ]; exact hi, ha, hb⟩

/-- A byte position lies in the closed interval of at most one chain line. -/
theorem chain_unique {t : List Char} {s : Nat} {L : List Line} (h : ChainFrom t s L) :
    ∀ pos i j li lj, L.get? i = some li → L.get? j = some lj →
      li.start ≤ pos → pos ≤ li.stop → lj.start ≤ pos → pos ≤ lj.stop → i = j := by
  intro pos i j li lj hi hj h1 h2 h3 h4
  rcases Nat.lt_trichotomy i j with hij | hij | hij
  · have := chain_disjoint h i j li lj hi hj hij; omega
  · exact hij
  · have := chain_disjoint h j i lj li hj hi hij; omega

/-- C6. For every text, `find_lines` yields at least one line; the first line
starts at 0 and the last ends at the byte length of the text; consecutive lines
are adjacent with exactly the terminating newline byte (excluded from the
earlier line) between them; every line has ordered endpoints; and the closed
line intervals cover every byte position `0 ≤ pos ≤ len(text)`, each position
lying in exactly one line: the ordered ranges partition `[0, len(text)]`
contiguously with no gaps or overlaps. -/
theorem find_lines_partition (t : List Char) :
    find_lines t ≠ [] ∧
    (∀ l, (find_lines t).head? = some l → l.start = 0) ∧
    (∀ l, (find_lines t).getLast? = some l → l.stop = utf8Len t) ∧
    (∀ i li lj, (find_lines t).get? i = some li → (find_lines t).get? (i + 1) = some lj →
      lj.start = li.stop + 1 ∧ (byteDrop t li.stop).head? = some '\n') ∧
    (∀ l ∈ find_lines t, l.start ≤ l.stop ∧ l.stop ≤ utf8Len t) ∧
    (∀ pos, pos ≤ utf8Len t →
      ∃ i l, (find_lines t).get? i = some l ∧ l.start ≤ pos ∧ pos ≤ l.stop) ∧
    (∀ pos i j li lj, (find_lines t).get? i = some li → (find_lines t).get? j = some lj →
      li.start ≤ pos → pos ≤ li.stop → lj.start ≤ pos → pos ≤ lj.stop → i = j) := by
  have hch := find_lines_chain t
  refine ⟨chain_ne_nil hch, ?_, chain_getLast_stop hch, chain_adjacent hch, ?_, ?_, ?_⟩
  · intro l hl
    cases hfl : find_lines t with
    | nil => rw [hfl] at hl; simp at hl
    | cons a as =>
      rw [hfl] at hl
      simp only [List.head?_cons, Option.some.injEq] at hl
      subst hl
      rw [hfl] at hch
      exact chain_head_start hch
  · intro l hl
    have := chain_elem hch l hl
    exact ⟨this.1, this.2.2.2⟩
  · intro pos hpos
    exact chain_cover hch pos (Nat.zero_le _) hpos
  · exact chain_unique hch

/-- C6 (witness): the partition facts evaluated on the text "a\nb". -/
theorem find_lines_partition_witness :
    (⟨0, 1⟩ : Line).start = 0 ∧ (⟨2, 3⟩ : Line).stop = utf8Len ['a', '\n', 'b'] := by
  constructor
  · exact (find_lines_partition ['a', '\n', 'b']).2.1 ⟨0, 1⟩ (by decide)
  · exact (find_lines_partition ['a', '\n', 'b']).2.2.1 ⟨2, 3⟩ (by decide)

/-- Entries of `enumFrom` index into the list. -/
theorem get?_of_mem_enumFrom {α : Type _} (l : List α) :
    ∀ (n : Nat) (p : Nat × α), p ∈ l.enumFrom n → n ≤ p.1 ∧ l.get? (p.1 - n) = some p.2 := by
  induction l with
  | nil => intro n p hp; simp at hp
  | cons x xs ih =>
    intro n p hp
    rw [List.enumFrom_cons] at hp
    rcases List.mem_cons.mp hp with rfl | hmem
    · simp
    · obtain ⟨h1, h2⟩ := ih (n + 1) p hmem
      refine ⟨by omega, ?_⟩
      have hi : p.1 - n = (p.1 - (n + 1)) + 1 := by omega
      rw [hi, List.get?_cons_succ]
      exact h2

/-- Indexed elements appear in `enumFrom`. -/
theorem mem_enumFrom_of_get? {α : Type _} (l : List α) :
    ∀ (n i : Nat) (a : α), l.get? i = some a → (n + i, a) ∈ l.enumFrom n := by
  induction l with
  | nil => intro n i a h; simp at h
  | cons x xs ih =>
    intro n i a h
    rw [List.enumFrom_cons]
    cases i with
    | zero =>
      simp only [List.get?_cons_zero, Option.some.injEq] at h
      subst h
      simp
    | succ i =>
      rw [List.get?_cons_succ] at h
      have := ih (n + 1) i a h
      have harith : n + (i + 1) = n + 1 + i := by omega
      rw [harith]
      exact List.mem_cons_of_mem _ this

/-- Entries of `enum` index into the list. -/
theorem get?_of_mem_enum {α : Type _} {l : List α} {p : Nat × α} (hp : p ∈ l.enum) :
    l.get? p.1 = some p.2 := by
  have := (get?_of_mem_enumFrom l 0 p hp).2
  simpa using this

/-- Indexed elements appear in `enum`. -/
theorem mem_enum_of_get? {α : Type _} {l : List α} {i : Nat} {a : α}
    (h : l.get? i = some a) : (i, a) ∈ l.enum := by
  have := mem_enumFrom_of_get? l 0 i a h
  simpa using this

/-- The `move_to_byte` fold leaves the cursor alone when no line contains `pos`. -/
theorem move_to_byte_fold_nomatch (pos : Nat) (E : List (Nat × Line)) :
    ∀ init : Cursor,
      (∀ p ∈ E, ¬(p.2.start ≤ pos ∧ pos ≤ p.2.stop)) →
      E.foldl (fun cur p => if p.2.start ≤ pos ∧ pos ≤ p.2.stop
        then { line := p.1, column := pos - p.2.start } else cur) init = init := by
  induction E with
  | nil => intro init _; rfl
  | cons q E ih =>
    intro init h
    have hq := h q (List.mem_cons_self q E)
    simp only [List.foldl_cons, if_neg hq]
    exact ih init (fun p hp => h p (List.mem_cons_of_mem q hp))

/-- When some line contains `pos`, the `move_to_byte` fold lands on a containing
line (the last one scanned). -/
theorem move_to_byte_fold_match (pos : Nat) (E : List (Nat × Line)) :
    ∀ init : Cursor,
      (∃ p ∈ E, p.2.start ≤ pos ∧ pos ≤ p.2.stop) →
      ∃ p ∈ E, (p.2.start ≤ pos ∧ pos ≤ p.2.stop) ∧
        E.foldl (fun cur p => if p.2.start ≤ pos ∧ pos ≤ p.2.stop
          then { line := p.1, column := pos - p.2.start } else cur) init =
          { line := p.1, column := pos - p.2.start } := by
  induction E with
  | nil => intro init h; simp at h
  | cons q E ih =>
    intro init h
    by_cases hex : ∃ p ∈ E, p.2.start ≤ pos ∧ pos ≤ p.2.stop
    · obtain ⟨p, hp, hc, heq⟩ := ih (if q.2.start ≤ pos ∧ pos ≤ q.2.stop
        then { line := q.1, column := pos - q.2.start } else init) hex
      exact ⟨p, List.mem_cons_of_mem q hp, hc, heq⟩
    · obtain ⟨p, hp, hc⟩ := h
      rcases List.mem_cons.mp hp with rfl | hmem
      · refine ⟨p, List.mem_cons_self p E, hc, ?_⟩
        simp only [List.foldl_cons, if_pos hc]
        refine move_to_byte_fold_nomatch pos E _ ?_
        intro r hr hcr
        exact hex ⟨r, hr, hcr⟩
      · exact absurd ⟨p, hmem, hc⟩ hex

@[simp] theorem text_move_to_byte (e : Editor) (pos : Nat) :
    (e.move_to_byte pos).text = e.text := rfl

@[simp] theorem lines_move_to_byte (e : Editor) (pos : Nat) :
    (e.move_to_byte pos).lines = e.lines := rfl

@[simp] theorem marker_move_to_byte (e : Editor) (pos : Nat) :
    (e.move_to_byte pos).marker = e.marker := rfl

/-- Specification of `move_to_byte` on a consistent line index: for `pos` within
the text it puts the cursor on the unique line containing `pos`, at column
`pos - start`, so that `char_index` becomes `pos`. -/
theorem move_to_byte_spec (e : Editor) (pos : Nat)
    (hlines : e.lines = find_lines e.text) (hpos : pos ≤ utf8Len e.text) :
    ∃ i l, e.lines.get? i = some l ∧ l.start ≤ pos ∧ pos ≤ l.stop ∧
      (e.move_to_byte pos).cursor = { line := i, column := pos - l.start } := by
  have hch : ChainFrom e.text 0 e.lines := by rw [hlines]; exact find_lines_chain e.text
  obtain ⟨i, l, hi, ha, hb⟩ := chain_cover hch pos (Nat.zero_le _) hpos
  have hmem : (i, l) ∈ e.lines.enum := mem_enum_of_get? hi
  obtain ⟨p, hpmem, hpcond, heq⟩ :=
    move_to_byte_fold_match pos e.lines.enum e.cursor ⟨(i, l), hmem, ha, hb⟩
  refine ⟨p.1, p.2, get?_of_mem_enum hpmem, hpcond.1, hpcond.2, ?_⟩
  show (e.lines.enum.foldl _ e.cursor) = _
  exact heq

/-- `char_index` after `move_to_byte` is the requested position. -/
theorem char_index_move_to_byte (e : Editor) (pos : Nat)
    (hlines : e.lines = find_lines e.text) (hpos : pos ≤ utf8Len e.text) :
    (e.move_to_byte pos).char_index = pos := by
  obtain ⟨i, l, hi, ha, _, hc⟩ := move_to_byte_spec e pos hlines hpos
  unfold Editor.char_index Editor.current_line
  rw [lines_move_to_byte, hc]
  simp only
  rw [List.getD_eq_getElem?_getD, ← List.get?_eq_getElem?, hi]
  simp only [Option.getD_some]
  omega

/-- The current line is the indexed line whenever the index is in range. -/
theorem current_line_eq {e : Editor} {l : Line}
    (h : e.lines.get? e.cursor.line = some l) : e.current_line = l := by
  unfold Editor.current_line
  rw [List.getD_eq_getElem?_getD, ← List.get?_eq_getElem?, h]
  rfl

/-- A chain line that stops before the end of the text stops at a newline. -/
theorem chain_stop_lt_newline {t : List Char} {s : Nat} {L : List Line} (h : ChainFrom t s L) :
    ∀ i l, L.get? i = some l → l.stop < utf8Len t →
      (byteDrop t l.stop).head? = some '\n' := by
  induction h with
  | last start l' h1 h2 h3 h4 h5 h6 =>
    intro i l hl hlt
    cases i with
    | zero =>
      simp only [List.get?_cons_zero, Option.some.injEq] at hl
      subst hl
      omega
    | succ i => simp at hl
  | cons start l' L' h1 h2 h3 h4 h5 h6 h7 ih =>
    intro i l hl hlt
    cases i with
    | zero =>
      simp only [List.get?_cons_zero, Option.some.injEq] at hl
      subst hl
      exact h3
    | succ i =>
      rw [List.get?_cons_succ] at hl
      exact ih i l hl hlt

/-- Dropping past a boundary decomposes into two drops. -/
theorem byteDrop_add (t : List Char) (a k : Nat) (ha : isCharBoundary t a = true) :
    byteDrop t (a + k) = byteDrop (byteDrop t a) k := by
  have h1 : utf8Len (byteTake t a) = a := utf8Len_byteTake t a ha
  calc byteDrop t (a + k)
      = byteDrop (byteTake t a ++ byteDrop t a) (utf8Len (byteTake t a) + k) := by
        rw [byteTake_append_byteDrop, h1]
    _ = byteDrop (byteDrop t a) k := byteDrop_utf8Len_append _ _ _

/-- A text splits as prefix, slice, suffix at a boundary `a` and any `b ≥ a`. -/
theorem splice_decomp (t : List Char) (a b : Nat) (hab : a ≤ b)
    (ha : isCharBoundary t a = true) :
    byteTake t a ++ (byteSlice t a b ++ byteDrop t b) = t := by
  have h2 : byteDrop t b = byteDrop (byteDrop t a) (b - a) := by
    have hd := byteDrop_add t a (b - a) ha
    rw [show a + (b - a) = b from by omega] at hd
    exact hd
  rw [h2]
  unfold byteSlice
  rw [byteTake_append_byteDrop]
  exact byteTake_append_byteDrop t a

/-- Taking exactly the byte length of a known prefix. -/
theorem byteTake_prefix_self (A X : List Char) (n : Nat) (h : utf8Len A = n) :
    byteTake (A ++ X) n = A := by
  rw [← h]; exact byteTake_append_len A X

/-- Dropping exactly the byte length of a known prefix. -/
theorem byteDrop_prefix_self (A X : List Char) (n : Nat) (h : utf8Len A = n) :
    byteDrop (A ++ X) n = X := by
  rw [← h]; exact byteDrop_append_len A X

/-- With the cursor line in range, `current_line` is the indexed lookup. -/
theorem current_line_get? (e : Editor) (h : e.cursor.line < e.lines.length) :
    e.lines.get? e.cursor.line = some e.current_line := by
  unfold Editor.current_line
  rw [List.getD_eq_getElem?_getD, ← List.get?_eq_getElem?]
  cases hg : e.lines.get? e.cursor.line with
  | none =>
    rw [List.get?_eq_none] at hg
    omega
  | some l => rfl

/-- The text after `paste`: the clipboard spliced in at the cursor byte position. -/
theorem paste_text (x : Editor) :
    (x.paste).text =
      byteTake x.text x.char_index ++ x.clipboard ++ byteDrop x.text x.char_index := rfl

/-- The text after `cut`: the selected range (line range extended over its
newline in the no-marker case, clamped to the text length) spliced out. -/
theorem cut_text (e : Editor) :
    (e.cut).text = byteTake e.text (e.selection_or_line).1 ++
      byteDrop e.text (min (if e.marker = none then (e.selection_or_line).2 + 1
        else (e.selection_or_line).2) (utf8Len e.text)) := rfl

/-- The clipboard after `cut`: the selected range, with a newline appended in
the whole-line (no-marker) case. -/
theorem cut_clipboard (e : Editor) :
    (e.cut).clipboard = (if e.marker = none
      then byteSlice e.text (e.selection_or_line).1 (e.selection_or_line).2 ++ ['\n']
      else byteSlice e.text (e.selection_or_line).1 (e.selection_or_line).2) := rfl

/-- `cut` relocates the cursor to the start of the removed range. -/
theorem cut_char_index (e : Editor)
    (h : (e.selection_or_line).1 ≤ utf8Len (e.cut).text) :
    (e.cut).char_index = (e.selection_or_line).1 :=
  char_index_move_to_byte
    { e with clipboard := (e.cut).clipboard, text := (e.cut).text,
             lines := (e.cut).lines }
    (e.selection_or_line).1 rfl h

/-- C1 (amended). On a well-formed state, `cut()` immediately followed by
`paste()` reproduces the original Text exactly whenever an explicit selection
(marker) is present, and also in the whole-line default case whenever the cut
line is terminated by a newline inside the Text (equivalently, it is not an
unterminated final line). -/
theorem cut_paste_roundtrip (e : Editor) (hwf : WF e)
    (hcase : e.marker ≠ none ∨ e.current_line.stop < utf8Len e.text) :
    ((e.cut).paste).text = e.text := by
  obtain ⟨hlines, ⟨hlt, hcol, hbci⟩, hmk⟩ := hwf
  have hch : ChainFrom e.text 0 e.lines := by rw [hlines]; exact find_lines_chain e.text
  have hci_le : e.char_index ≤ utf8Len e.text := isCharBoundary_le _ _ hbci
  rw [paste_text]
  rcases hm : e.marker with _ | m
  · -- no marker: whole-line cut; the line must be newline-terminated
    have hstop : e.current_line.stop < utf8Len e.text := by
      rcases hcase with hc | hc
      · exact absurd hm hc
      · exact hc
    have hlget := current_line_get? e hlt
    obtain ⟨hls, hbstart, hbstop, _⟩ := chain_elem hch e.current_line (List.get?_mem hlget)
    have hnl : (byteDrop e.text e.current_line.stop).head? = some '\n' :=
      chain_stop_lt_newline hch e.cursor.line e.current_line hlget hstop
    have hSE : e.selection_or_line = (e.current_line.start, e.current_line.stop) := by
      simp [Editor.selection_or_line, Editor.selection, hm]
    have hmin : min (e.current_line.stop + 1) (utf8Len e.text) = e.current_line.stop + 1 :=
      Nat.min_eq_left (by omega)
    have hcutT : (e.cut).text =
        byteTake e.text e.current_line.start ++ byteDrop e.text (e.current_line.stop + 1) := by
      rw [cut_text, hSE, hm]
      simp [hmin]
    have htklen : utf8Len (byteTake e.text e.current_line.start) = e.current_line.start :=
      utf8Len_byteTake e.text e.current_line.start hbstart
    have hSlen : (e.selection_or_line).1 ≤ utf8Len (e.cut).text := by
      rw [hSE, hcutT, utf8Len_append, htklen]
      simp
    have hq : (e.cut).char_index = e.current_line.start := by
      rw [cut_char_index e hSlen, hSE]
    have hdE : byteDrop e.text e.current_line.stop =
        '\n' :: byteDrop e.text (e.current_line.stop + 1) := by
      cases hd : byteDrop e.text e.current_line.stop with
      | nil => rw [hd] at hnl; simp at hnl
      | cons c rest =>
        rw [hd] at hnl
        simp only [List.head?_cons, Option.some.injEq] at hnl
        subst hnl
        have hda : byteDrop e.text (e.current_line.stop + 1) =
            byteDrop (byteDrop e.text e.current_line.stop) 1 :=
          byteDrop_add e.text e.current_line.stop 1 hbstop
        rw [hda, hd]
        simp [byteDrop, csize_newline]
    rw [hq, cut_clipboard, hSE, hm, hcutT]
    simp only [if_true]
    rw [byteTake_prefix_self _ _ _ htklen, byteDrop_prefix_self _ _ _ htklen]
    simp only [List.append_assoc, List.singleton_append]
    rw [← hdE]  -- replace the newline-cons suffix by the drop at stop
    exact splice_decomp e.text e.current_line.start e.current_line.stop hls hbstart
  · -- explicit selection
    have hmk' : m ≤ utf8Len e.text ∧ isCharBoundary e.text m = true := by
      unfold markerOK at hmk
      rw [hm] at hmk
      simpa using hmk
    have hSE : e.selection_or_line = (min m e.char_index, max m e.char_index) := by
      simp [Editor.selection_or_line, Editor.selection, hm]
    have hSle : min m e.char_index ≤ max m e.char_index :=
      le_trans (Nat.min_le_left _ _) (Nat.le_max_left _ _)
    have hbS : isCharBoundary e.text (min m e.char_index) = true := by
      rcases Nat.le_total m e.char_index with h | h
      · rw [Nat.min_eq_left h]; exact hmk'.2
      · rw [Nat.min_eq_right h]; exact hbci
    have hElen : max m e.char_index ≤ utf8Len e.text := max_le hmk'.1 hci_le
    have hmin : min (max m e.char_index) (utf8Len e.text) = max m e.char_index :=
      Nat.min_eq_left hElen
    have hcutT : (e.cut).text = byteTake e.text (min m e.char_index) ++
        byteDrop e.text (max m e.char_index) := by
      rw [cut_text, hSE, hm]
      simp [hmin]
    have htklen : utf8Len (byteTake e.text (min m e.char_index)) = min m e.char_index :=
      utf8Len_byteTake e.text _ hbS
    have hSlen : (e.selection_or_line).1 ≤ utf8Len (e.cut).text := by
      rw [hSE, hcutT, utf8Len_append, htklen]
      simp
    have hq : (e.cut).char_index = min m e.char_index := by
      rw [cut_char_index e hSlen, hSE]
    rw [hq, cut_clipboard, hSE, hm, hcutT]
    simp only [if_neg (by simp : ¬(some m = none))]
    rw [byteTake_prefix_self _ _ _ htklen, byteDrop_prefix_self _ _ _ htklen]
    simp only [List.append_assoc]
    exact splice_decomp e.text (min m e.char_index) (max m e.char_index) hSle hbS

/-- C1 (witness): the §8 scenario "hello world" with marker 0 and cursor 5 is
well formed and round-trips; "abc\ndef" with the cursor on the first line is
well formed and round-trips in the whole-line case. -/
theorem cut_paste_roundtrip_witness :
    WF edHello ∧ ((edHello.cut).paste).text = edHello.text ∧
    WF edABCD ∧ ((edABCD.cut).paste).text = edABCD.text :=
  ⟨by decide, cut_paste_roundtrip edHello (by decide) (Or.inl (by decide)),
   by decide, cut_paste_roundtrip edABCD (by decide) (Or.inr (by decide))⟩

/-- The healed column never exceeds the starting column. -/
theorem ensureBoundaryAux_le (t : List Char) (st : Nat) :
    ∀ n, ensureBoundaryAux t st n ≤ n := by
  intro n
  induction n with
  | zero => simp [ensureBoundaryAux]
  | succ n ih =>
    unfold ensureBoundaryAux
    split
    · exact Nat.le_refl _
    · exact Nat.le_trans ih (by omega)

/-- Starting from a boundary line start, the healed column is on a boundary. -/
theorem ensureBoundaryAux_boundary (t : List Char) (st : Nat)
    (hst : isCharBoundary t st = true) :
    ∀ n, isCharBoundary t (st + ensureBoundaryAux t st n) = true := by
  intro n
  induction n with
  | zero => simpa [ensureBoundaryAux] using hst
  | succ n ih =>
    unfold ensureBoundaryAux
    split
    · assumption
    · exact ih

/-- The healed column is the greatest boundary position at most the start value. -/
theorem ensureBoundaryAux_greatest (t : List Char) (st : Nat) :
    ∀ n j, j ≤ n → isCharBoundary t (st + j) = true → j ≤ ensureBoundaryAux t st n := by
  intro n
  induction n with
  | zero => intro j hj _; omega
  | succ n ih =>
    intro j hj hbj
    unfold ensureBoundaryAux
    split
    · omega
    · rename_i hnb
      have hne : j ≠ n + 1 := by
        intro h
        subst h
        exact hnb hbj
      exact ih j (by omega) hbj

/-- The heal is a no-op when the column is already on a boundary. -/
theorem ensureBoundaryAux_of_boundary (t : List Char) (st n : Nat)
    (h : isCharBoundary t (st + n) = true) : ensureBoundaryAux t st n = n := by
  cases n with
  | zero => rfl
  | succ n =>
    unfold ensureBoundaryAux
    rw [if_pos h]

/-- Cursor after `move_down`, unfolded. -/
theorem move_down_cursor (e : Editor) (n : Nat) :
    (e.move_down n).cursor = ⟨min (e.cursor.line + n) (e.lines.length - 1),
      ensureBoundaryAux e.text
        (e.lines.getD (min (e.cursor.line + n) (e.lines.length - 1)) ⟨0, 0⟩).start
        (min (byteSlice e.text e.current_line.start
            (e.current_line.start + e.cursor.column)).length
          (e.lines.getD (min (e.cursor.line + n) (e.lines.length - 1)) ⟨0, 0⟩).len)⟩ := rfl

/-- Cursor after `move_up`, unfolded. -/
theorem move_up_cursor (e : Editor) (n : Nat) :
    (e.move_up n).cursor = ⟨e.cursor.line - n,
      ensureBoundaryAux e.text
        (e.lines.getD (e.cursor.line - n) ⟨0, 0⟩).start
        (min (byteSlice e.text e.current_line.start
            (e.current_line.start + e.cursor.column)).length
          (e.lines.getD (e.cursor.line - n) ⟨0, 0⟩).len)⟩ := rfl

/-- In-range `getD` agrees with `get?` on line lists. -/
theorem lines_get?_getD (L : List Line) (i : Nat) (h : i < L.length) :
    L.get? i = some (L.getD i ⟨0, 0⟩) := by
  rw [List.getD_eq_getElem?_getD, ← List.get?_eq_getElem?]
  cases hg : L.get? i with
  | none =>
    rw [List.get?_eq_none] at hg
    omega
  | some l => rfl

/-- C5 (amended). `move_down(n)` and `move_up(n)` clamp the line index
(`move_down` saturates at the last line, `move_up` at line 0), and set the byte
column to the greatest character-boundary position not exceeding
`min(saved character count, destination line byte length)` — the saved
character count is used directly as a byte column, clamped, then stepped
backward to a boundary. -/
theorem move_vertical_spec (e : Editor) (hwf : WF e) (n : Nat) :
    ((e.move_down n).cursor.line = min (e.cursor.line + n) (e.lines.length - 1) ∧
      (e.move_down n).cursor.column ≤
        min (byteSlice e.text e.current_line.start
            (e.current_line.start + e.cursor.column)).length
          ((e.lines.getD (min (e.cursor.line + n) (e.lines.length - 1)) ⟨0, 0⟩).len) ∧
      isCharBoundary e.text
        ((e.lines.getD (min (e.cursor.line + n) (e.lines.length - 1)) ⟨0, 0⟩).start +
          (e.move_down n).cursor.column) = true ∧
      (∀ j, j ≤ min (byteSlice e.text e.current_line.start
            (e.current_line.start + e.cursor.column)).length
          ((e.lines.getD (min (e.cursor.line + n) (e.lines.length - 1)) ⟨0, 0⟩).len) →
        isCharBoundary e.text
          ((e.lines.getD (min (e.cursor.line + n) (e.lines.length - 1)) ⟨0, 0⟩).start + j)
            = true →
        j ≤ (e.move_down n).cursor.column)) ∧
    ((e.move_up n).cursor.line = e.cursor.line - n ∧
      (e.move_up n).cursor.column ≤
        min (byteSlice e.text e.current_line.start
            (e.current_line.start + e.cursor.column)).length
          ((e.lines.getD (e.cursor.line - n) ⟨0, 0⟩).len) ∧
      isCharBoundary e.text
        ((e.lines.getD (e.cursor.line - n) ⟨0, 0⟩).start +
          (e.move_up n).cursor.column) = true ∧
      (∀ j, j ≤ min (byteSlice e.text e.current_line.start
            (e.current_line.start + e.cursor.column)).length
          ((e.lines.getD (e.cursor.line - n) ⟨0, 0⟩).len) →
        isCharBoundary e.text ((e.lines.getD (e.cursor.line - n) ⟨0, 0⟩).start + j) = true →
        j ≤ (e.move_up n).cursor.column)) := by
  obtain ⟨hlines, ⟨hlt, hcol, hbci⟩, hmk⟩ := hwf
  have hch : ChainFrom e.text 0 e.lines := by rw [hlines]; exact find_lines_chain e.text
  have hpos : 0 < e.lines.length := List.length_pos.mpr (chain_ne_nil hch)
  constructor
  · have hL : min (e.cursor.line + n) (e.lines.length - 1) < e.lines.length := by
      have := Nat.min_le_right (e.cursor.line + n) (e.lines.length - 1)
      omega
    have hget := lines_get?_getD e.lines _ hL
    have hbst := (chain_elem hch _ (List.get?_mem hget)).2.1
    rw [move_down_cursor]
    exact ⟨rfl, ensureBoundaryAux_le _ _ _, ensureBoundaryAux_boundary _ _ hbst _,
      fun j hj hbj => ensureBoundaryAux_greatest _ _ _ j hj hbj⟩
  · have hL : e.cursor.line - n < e.lines.length := by omega
    have hget := lines_get?_getD e.lines _ hL
    have hbst := (chain_elem hch _ (List.get?_mem hget)).2.1
    rw [move_up_cursor]
    exact ⟨rfl, ensureBoundaryAux_le _ _ _, ensureBoundaryAux_boundary _ _ hbst _,
      fun j hj hbj => ensureBoundaryAux_greatest _ _ _ j hj hbj⟩

/-- C5 (witness): the amended vertical-move description evaluated on "ab\ncd". -/
theorem move_vertical_spec_witness :
    WF edABCD ∧
    (edABCD.move_down 1).cursor.line = min (edABCD.cursor.line + 1) (edABCD.lines.length - 1) :=
  ⟨by decide, ((move_vertical_spec edABCD (by decide) 1).1).1⟩

/-- C10. `backspace` cannot reach the panic in `prev_char_index`: at absolute
byte offset 0 it is a no-op leaving the whole state unchanged, and on a
well-formed state `prev_char_index` would panic (returns `none`) exactly at
offset 0, which the guard excludes. -/
theorem backspace_no_panic (e : Editor) (hwf : WF e) :
    (e.char_index = 0 → e.backspace = e) ∧
    (0 < e.char_index → e.prev_char_index? ≠ none) ∧
    (e.prev_char_index? = none ↔ e.char_index = 0) := by
  obtain ⟨hlines, ⟨hlt, hcol, hbci⟩, hmk⟩ := hwf
  have hci_le : e.char_index ≤ utf8Len e.text := isCharBoundary_le _ _ hbci
  have hkey : 0 < e.char_index → e.prev_char_index? ≠ none := by
    intro h0
    have hne : byteTake e.text e.char_index ≠ [] := by
      cases ht : e.text with
      | nil =>
        rw [ht] at hci_le
        simp only [utf8Len_nil, Nat.le_zero] at hci_le
        exact absurd h0 (by omega)
      | cons c cs =>
        have hne0 : ¬e.char_index = 0 := by omega
        simp [byteTake, hne0]
    have hci_ne : charIndices (byteTake e.text e.char_index) ≠ [] := by
      cases hb : byteTake e.text e.char_index with
      | nil => exact absurd hb hne
      | cons a as => simp [charIndices, charIndicesAux]
    intro hcon
    unfold Editor.prev_char_index? at hcon
    rw [Option.map_eq_none'] at hcon
    have h2 : (charIndices (byteTake e.text e.char_index)).getLast?.isSome = true :=
      List.getLast?_isSome.mpr hci_ne
    rw [hcon] at h2
    simp at h2
  refine ⟨?_, hkey, ?_, ?_⟩
  · intro h0
    unfold Editor.backspace
    rw [h0]
    simp
  · intro hnone
    by_contra hne
    exact hkey (by omega) hnone
  · intro h0
    unfold Editor.prev_char_index?
    rw [h0]
    simp [charIndices, charIndicesAux]

/-- C10 (witness): on the document "a" with the cursor at offset 0, `backspace`
is the identity; the well-formedness hypothesis holds by evaluation. -/
theorem backspace_no_panic_witness :
    WF edA ∧ edA.backspace = edA :=
  ⟨by decide, (backspace_no_panic edA (by decide)).1 (by decide)⟩

/-- C7. `save` on a document with no path prompts: if the prompt is cancelled
(`none`), the path stays `none`, the unsaved flag is untouched and nothing is
written; if a freshly prompted path fails to create, an error message is set,
nothing is written, the flag is untouched and the path reverts to `none`; a
pre-existing path is kept after a failed save (message set, nothing written). -/
theorem save_path_prompt_behavior (e : Editor) (p : String) (create_ok : Bool) :
    (e.path = none →
      (e.save none create_ok).1.path = none ∧
      (e.save none create_ok).1.unsaved_changes = e.unsaved_changes ∧
      (e.save none create_ok).2 = none) ∧
    (e.path = none →
      (e.save (some p) false).1.path = none ∧
      (e.save (some p) false).1.message ≠ none ∧
      (e.save (some p) false).1.unsaved_changes = e.unsaved_changes ∧
      (e.save (some p) false).2 = none) ∧
    (e.path = some p → ∀ prompt_result,
      (e.save prompt_result false).1.path = some p ∧
      (e.save prompt_result false).1.message ≠ none ∧
      (e.save prompt_result false).1.unsaved_changes = e.unsaved_changes ∧
      (e.save prompt_result false).2 = none) := by
  refine ⟨?_, ?_, ?_⟩
  · intro h
    simp [Editor.save, h]
  · intro h
    simp [Editor.save, h]
  · intro h prompt_result
    simp [Editor.save, h]

/-- C7 (witness): the three save scenarios evaluated on concrete states. -/
theorem save_path_prompt_behavior_witness :
    (edA.save none true).1.path = none ∧ (edA.save none true).2 = none ∧
    (({ edA with path := some "f" }).save none false).1.path = some "f" :=
  ⟨((save_path_prompt_behavior edA "f" true).1 rfl).1,
   ((save_path_prompt_behavior edA "f" true).1 rfl).2.2,
   ((save_path_prompt_behavior { edA with path := some "f" } "f" false).2.2 rfl none).1⟩

@[simp] theorem scroll_to_cursor_text (e : Editor) : (e.scroll_to_cursor).text = e.text := rfl
@[simp] theorem scroll_to_cursor_lines (e : Editor) : (e.scroll_to_cursor).lines = e.lines := rfl
@[simp] theorem scroll_to_cursor_cursor (e : Editor) : (e.scroll_to_cursor).cursor = e.cursor := rfl

@[simp] theorem move_right_text (e : Editor) : (e.move_right).text = e.text := by
  unfold Editor.move_right Editor.scroll_to_cursor
  dsimp only
  split
  · rfl
  · split <;> rfl

@[simp] theorem move_right_lines (e : Editor) : (e.move_right).lines = e.lines := by
  unfold Editor.move_right Editor.scroll_to_cursor
  dsimp only
  split
  · rfl
  · split <;> rfl

@[simp] theorem move_left_text (e : Editor) : (e.move_left).text = e.text := by
  unfold Editor.move_left Editor.scroll_to_cursor
  dsimp only
  split
  · rfl
  · split <;> rfl

@[simp] theorem move_left_lines (e : Editor) : (e.move_left).lines = e.lines := by
  unfold Editor.move_left Editor.scroll_to_cursor
  dsimp only
  split
  · rfl
  · split <;> rfl

/-- Cursor after `move_right` in the within-line branch. -/
theorem move_right_cursor_lt (x : Editor) (h : x.cursor.column < x.current_line.len) :
    (x.move_right).cursor = ⟨x.cursor.line, x.next_char_index - x.current_line.start⟩ := by
  unfold Editor.move_right Editor.scroll_to_cursor
  dsimp only
  rw [if_pos h]

/-- Cursor after `move_right` in the wrap-to-next-line branch. -/
theorem move_right_cursor_wrap (x : Editor) (h : ¬x.cursor.column < x.current_line.len)
    (h2 : x.cursor.line < x.lines.length - 1) :
    (x.move_right).cursor = ⟨x.cursor.line + 1, 0⟩ := by
  unfold Editor.move_right Editor.scroll_to_cursor
  dsimp only
  rw [if_neg h, if_pos h2]

/-- Cursor after `move_left` in the within-line branch. -/
theorem move_left_cursor_pos (x : Editor) (h : 0 < x.cursor.column) :
    (x.move_left).cursor = ⟨x.cursor.line, x.prev_char_index - x.current_line.start⟩ := by
  unfold Editor.move_left Editor.scroll_to_cursor
  dsimp only
  rw [if_pos h]

/-- Cursor after `move_left` in the wrap-to-previous-line branch. -/
theorem move_left_cursor_wrap (x : Editor) (h : ¬0 < x.cursor.column)
    (h2 : 0 < x.cursor.line) :
    (x.move_left).cursor =
      ⟨x.cursor.line - 1, (x.lines.getD (x.cursor.line - 1) ⟨0, 0⟩).len⟩ := by
  unfold Editor.move_left Editor.scroll_to_cursor
  dsimp only
  rw [if_neg h, if_pos h2]
  rfl

/-- `insert_char` unfolded: splice the character in, rebuild, move right. -/
theorem insert_char_eq (x : Editor) (c : Char) :
    x.insert_char c = Editor.move_right
      { x with unsaved_changes := true,
               text := byteTake x.text x.char_index ++ c :: byteDrop x.text x.char_index,
               lines := find_lines
                 (byteTake x.text x.char_index ++ c :: byteDrop x.text x.char_index) } :=
  rfl

/-- `backspace` unfolded, in the guarded branch. -/
theorem backspace_eq_of_pos (x : Editor) (h : 0 < x.char_index) :
    x.backspace = { x.move_left with
      text := removeChar (x.move_left).text (x.move_left).char_index,
      lines := find_lines (removeChar (x.move_left).text (x.move_left).char_index) } := by
  unfold Editor.backspace
  rw [if_pos h]

/-- `delete` unfolded, in the guarded branch. -/
theorem delete_eq_of_lt (x : Editor) (h : x.char_index < utf8Len x.text) :
    x.delete = { x with
      text := removeChar x.text x.char_index,
      lines := find_lines (removeChar x.text x.char_index) } := by
  unfold Editor.delete
  rw [if_pos h]

/-- The line after a prefix of known length, by index. -/
theorem get?_append_cons (D : List Line) (l : Line) (R : List Line) :
    (D ++ l :: R).get? D.length = some l := by
  rw [List.get?_append_right (Nat.le_refl D.length)]
  simp

/-- The next-character formula: one character width ahead, when a character
follows the cursor. -/
theorem next_char_index_formula (x : Editor) (hb : isCharBoundary x.text x.char_index = true)
    (c : Char) (B : List Char) (h : byteDrop x.text x.char_index = c :: B) :
    x.next_char_index = x.char_index + csize c := by
  unfold Editor.next_char_index
  rw [h]
  cases B with
  | nil =>
    show utf8Len x.text = x.char_index + csize c
    have hsplit : byteTake x.text x.char_index ++ byteDrop x.text x.char_index = x.text :=
      byteTake_append_byteDrop _ _
    rw [h] at hsplit
    rw [← hsplit, utf8Len_append, utf8Len_byteTake _ _ hb]
    simp
  | cons b bs =>
    show 0 + csize c + x.char_index = x.char_index + csize c
    omega

/-- The previous-character formula: the byte position of the last character of
the prefix before the cursor. -/
theorem prev_char_index_formula (x : Editor) (q : List Char) (d : Char)
    (h : byteTake x.text x.char_index = q ++ [d]) :
    x.prev_char_index = utf8Len q := by
  unfold Editor.prev_char_index Editor.prev_char_index?
  rw [h, charIndices_getLast_concat]
  rfl

/-- `getLast?` skips a head when the tail is nonempty. -/
theorem getLast?_cons_of_ne_nil' {α : Type _} (a : α) (l : List α) (h : l ≠ []) :
    (a :: l).getLast? = l.getLast? := by
  cases l with
  | nil => exact absurd rfl h
  | cons b bs => rw [List.getLast?_cons_cons]

/-- `dropLast` keeps a head when the tail is nonempty. -/
theorem dropLast_cons_of_ne_nil' {α : Type _} (a : α) (l : List α) (h : l ≠ []) :
    (a :: l).dropLast = a :: l.dropLast := by
  cases l with
  | nil => exact absurd rfl h
  | cons b bs => rfl

/-- Equation: the scanner on a newline closes the open line. -/
theorem findLinesAux_cons_newline (pos start : Nat) (cs : List Char) :
    findLinesAux pos start ('\n' :: cs) =
      ⟨start, pos⟩ :: findLinesAux (pos + 1) (pos + 1) cs := by
  simp [findLinesAux]

/-- Equation: the scanner on a non-newline advances the byte position. -/
theorem findLinesAux_cons_other (c : Char) (hc : c ≠ '\n') (pos start : Nat) (cs : List Char) :
    findLinesAux pos start (c :: cs) = findLinesAux (pos + csize c) start cs := by
  simp [findLinesAux, hc]

/-- Scanning `xs ++ ys` is scanning `xs`, then continuing its open line
(starting at the start of `xs`'s last line) through `ys`. -/
theorem findLinesAux_append (xs : List Char) :
    ∀ (ys : List Char) (pos start : Nat), start ≤ pos →
      ∃ s', s' ≤ pos + utf8Len xs ∧
        (findLinesAux pos start xs).getLast? = some ⟨s', pos + utf8Len xs⟩ ∧
        findLinesAux pos start (xs ++ ys) =
          (findLinesAux pos start xs).dropLast ++ findLinesAux (pos + utf8Len xs) s' ys := by
  induction xs with
  | nil =>
    intro ys pos start hle
    exact ⟨start, by simpa using hle, by simp [findLinesAux], by simp [findLinesAux]⟩
  | cons c xs ih =>
    intro ys pos start hle
    by_cases hc : c = '\n'
    · subst hc
      obtain ⟨s', h1, h2, h3⟩ := ih ys (pos + 1) (pos + 1) (Nat.le_refl _)
      have harith : pos + utf8Len ('\n' :: xs) = pos + 1 + utf8Len xs := by
        simp [csize_newline]
        omega
      refine ⟨s', by omega, ?_, ?_⟩
      · rw [findLinesAux_cons_newline,
          getLast?_cons_of_ne_nil' _ _ (findLinesAux_ne_nil xs _ _), h2, harith]
      · rw [List.cons_append, findLinesAux_cons_newline, findLinesAux_cons_newline, h3,
          dropLast_cons_of_ne_nil' _ _ (findLinesAux_ne_nil xs _ _), harith]
        simp
    · have hcp := csize_pos c
      obtain ⟨s', h1, h2, h3⟩ := ih ys (pos + csize c) start (by omega)
      have harith : pos + utf8Len (c :: xs) = pos + csize c + utf8Len xs := by
        simp
        omega
      refine ⟨s', by omega, ?_, ?_⟩
      · rw [findLinesAux_cons_other c hc, h2, harith]
      · rw [List.cons_append, findLinesAux_cons_other c hc, findLinesAux_cons_other c hc,
          h3, harith]

/-- Shifting both the byte position and the line start shifts every line. -/
theorem findLinesAux_shift_full (cs : List Char) :
    ∀ pos start w, findLinesAux (pos + w) (start + w) cs =
      (findLinesAux pos start cs).map (fun x => (⟨x.start + w, x.stop + w⟩ : Line)) := by
  induction cs with
  | nil => intro pos start w; simp [findLinesAux]
  | cons c cs ih =>
    intro pos start w
    by_cases hc : c = '\n'
    · subst hc
      rw [findLinesAux_cons_newline, findLinesAux_cons_newline, List.map_cons]
      rw [show pos + w + 1 = pos + 1 + w from by omega]
      rw [ih (pos + 1) (pos + 1) w]
    · rw [findLinesAux_cons_other c hc, findLinesAux_cons_other c hc]
      rw [show pos + w + csize c = pos + csize c + w from by omega]
      exact ih (pos + csize c) start w

/-- Shifting only the byte position extends the open first line and shifts the
rest wholesale. -/
theorem findLinesAux_shift (cs : List Char) :
    ∀ pos start w l L, findLinesAux pos start cs = l :: L →
      findLinesAux (pos + w) start cs =
        ⟨l.start, l.stop + w⟩ :: L.map (fun x => (⟨x.start + w, x.stop + w⟩ : Line)) := by
  induction cs with
  | nil =>
    intro pos start w l L h
    simp only [findLinesAux] at h
    injection h with h1 h2
    subst h1
    subst h2
    simp [findLinesAux]
  | cons c cs ih =>
    intro pos start w l L h
    by_cases hc : c = '\n'
    · subst hc
      rw [findLinesAux_cons_newline] at h
      injection h with h1 h2
      subst h1
      subst h2
      rw [findLinesAux_cons_newline]
      rw [show pos + w + 1 = pos + 1 + w from by omega]
      rw [findLinesAux_shift_full cs (pos + 1) (pos + 1) w]
    · rw [findLinesAux_cons_other c hc] at h
      rw [findLinesAux_cons_other c hc]
      rw [show pos + w + csize c = pos + csize c + w from by omega]
      exact ih (pos + csize c) start w l L h

/-- The first line produced from byte position `pos` stops at some `fn ≥ pos`,
independently of the `start` argument (which only names its start). -/
theorem findLinesAux_head_shape (cs : List Char) :
    ∀ pos, ∃ stop L, pos ≤ stop ∧
      ∀ start, findLinesAux pos start cs = ⟨start, stop⟩ :: L := by
  induction cs with
  | nil => intro pos; exact ⟨pos, [], Nat.le_refl _, fun start => rfl⟩
  | cons c cs ih =>
    intro pos
    by_cases hc : c = '\n'
    · subst hc
      exact ⟨pos, findLinesAux (pos + 1) (pos + 1) cs, Nat.le_refl _,
        fun start => findLinesAux_cons_newline pos start cs⟩
    · obtain ⟨stop, L, hle, hall⟩ := ih (pos + csize c)
      have hcp := csize_pos c
      exact ⟨stop, L, by omega,
        fun start => by rw [findLinesAux_cons_other c hc]; exact hall start⟩

/-- Master splitting lemma: at a character boundary `p` of `t`, the line index
splits as `D ++ [sA, fn] :: R` with `sA ≤ p ≤ fn`, and inserting any character
`c` at `p` leaves `D` unchanged, widens (or, for a newline, splits) the line
containing `p`, and shifts `R` by the width of `c`. -/
theorem lines_split_insert (t : List Char) (p : Nat) (hb : isCharBoundary t p = true) :
    ∃ D sA fn R,
      find_lines t = D ++ ⟨sA, fn⟩ :: R ∧ sA ≤ p ∧ p ≤ fn ∧
      ∀ c, find_lines (byteTake t p ++ c :: byteDrop t p) =
        D ++ (if c = '\n'
          then ⟨sA, p⟩ :: [⟨p + 1, fn + 1⟩]
          else [⟨sA, fn + csize c⟩]) ++
          R.map (fun x => (⟨x.start + csize c, x.stop + csize c⟩ : Line)) := by
  have hA : utf8Len (byteTake t p) = p := utf8Len_byteTake t p hb
  have hsplit : byteTake t p ++ byteDrop t p = t := byteTake_append_byteDrop t p
  obtain ⟨sA, hsle, hlast, happ⟩ :=
    findLinesAux_append (byteTake t p) (byteDrop t p) 0 0 (Nat.le_refl 0)
  obtain ⟨fn, R, hfnle, hshape⟩ := findLinesAux_head_shape (byteDrop t p) p
  rw [Nat.zero_add, hA] at hsle hlast happ
  have hfl : find_lines t =
      (findLinesAux 0 0 (byteTake t p)).dropLast ++ findLinesAux p sA (byteDrop t p) := by
    have h0 := happ
    rw [hsplit] at h0
    unfold find_lines
    rw [h0]
  refine ⟨(findLinesAux 0 0 (byteTake t p)).dropLast, sA, fn, R, ?_, hsle, hfnle, ?_⟩
  · rw [hfl, hshape sA]
  · intro c
    obtain ⟨s₂, hsle₂, hlast₂, happ₂⟩ :=
      findLinesAux_append (byteTake t p) (c :: byteDrop t p) 0 0 (Nat.le_refl 0)
    rw [Nat.zero_add, hA] at hlast₂ happ₂
    have hs₂ : s₂ = sA := by
      rw [hlast] at hlast₂
      simp only [Option.some.injEq, Line.mk.injEq] at hlast₂
      exact hlast₂.1.symm
    rw [hs₂] at happ₂
    unfold find_lines
    rw [happ₂]
    by_cases hc : c = '\n'
    · subst hc
      rw [if_pos rfl, findLinesAux_cons_newline]
      have hfull := findLinesAux_shift_full (byteDrop t p) p p 1
      rw [hshape p] at hfull
      rw [hfull]
      simp [csize_newline]
    · rw [if_neg hc, findLinesAux_cons_other c hc]
      rw [findLinesAux_shift (byteDrop t p) p sA (csize c) ⟨sA, fn⟩ R (hshape sA)]
      simp

/-- Before the end of the text, some character follows a boundary. -/
theorem byteDrop_ne_nil (t : List Char) (p : Nat) (hb : isCharBoundary t p = true)
    (h : p < utf8Len t) : byteDrop t p ≠ [] := by
  intro hcon
  have hsplit := byteTake_append_byteDrop t p
  rw [hcon, List.append_nil] at hsplit
  have h2 : utf8Len (byteTake t p) = p := utf8Len_byteTake t p hb
  rw [hsplit] at h2
  omega

/-- A character starting at boundary `p` ends by the next boundary after `p`. -/
theorem char_fits (t : List Char) (p q : Nat) (c : Char) (B : List Char)
    (hd : byteDrop t p = c :: B) (hbp : isCharBoundary t p = true)
    (hbq : isCharBoundary t q = true) (hpq : p < q) : p + csize c ≤ q := by
  have hA : utf8Len (byteTake t p) = p := utf8Len_byteTake t p hbp
  have ht : byteTake t p ++ c :: B = t := by
    rw [← hd]
    exact byteTake_append_byteDrop t p
  rw [← ht, isCharBoundary_append_iff] at hbq
  rcases hbq with hq1 | ⟨hge, hq2⟩
  · have := isCharBoundary_le _ _ hq1
    omega
  · rcases isCharBoundary_cons_cases c B (q - utf8Len (byteTake t p)) hq2 with h0 | hcs
    · omega
    · omega

/-- The position just past a whole character is a boundary. -/
theorem boundary_after_char (t : List Char) (p : Nat) (c : Char) (B : List Char)
    (hd : byteDrop t p = c :: B) (hbp : isCharBoundary t p = true) :
    isCharBoundary t (p + csize c) = true := by
  have hA : utf8Len (byteTake t p) = p := utf8Len_byteTake t p hbp
  have ht : (byteTake t p ++ [c]) ++ B = t := by
    rw [List.append_assoc, List.singleton_append, ← hd]
    exact byteTake_append_byteDrop t p
  have hlen : utf8Len (byteTake t p ++ [c]) = p + csize c := by
    rw [utf8Len_append, hA]
    simp
  have := isCharBoundary_append_len (byteTake t p ++ [c]) B
  rw [hlen, ht] at this
  exact this

/-- Cursor unchanged by `move_right` at the document end. -/
theorem move_right_cursor_id (x : Editor) (h : ¬x.cursor.column < x.current_line.len)
    (h2 : ¬x.cursor.line < x.lines.length - 1) : (x.move_right).cursor = x.cursor := by
  unfold Editor.move_right Editor.scroll_to_cursor
  dsimp only
  rw [if_neg h, if_neg h2]

/-- Cursor unchanged by `move_left` at the document start. -/
theorem move_left_cursor_id (x : Editor) (h : ¬0 < x.cursor.column)
    (h2 : ¬0 < x.cursor.line) : (x.move_left).cursor = x.cursor := by
  unfold Editor.move_left Editor.scroll_to_cursor
  dsimp only
  rw [if_neg h, if_neg h2]

/-- `move_right` preserves the cursor invariant. -/
theorem wf_move_right (e : Editor) (hl : LinesOK e) (hc : CursorInv e) :
    CursorInv (e.move_right) := by
  obtain ⟨hlt, hcol, hb⟩ := hc
  have hch : ChainFrom e.text 0 e.lines := by rw [hl]; exact find_lines_chain e.text
  have hget := current_line_get? e hlt
  obtain ⟨hse, hbs, hbe, hstople⟩ := chain_elem hch e.current_line (List.get?_mem hget)
  have hpstart : e.char_index = e.current_line.start + e.cursor.column := rfl
  by_cases h1 : e.cursor.column < e.current_line.len
  · have hpstop : e.char_index < e.current_line.stop := by
      unfold Line.len at h1
      omega
    have hplt : e.char_index < utf8Len e.text := by omega
    obtain ⟨c, B, hcB⟩ : ∃ c B, byteDrop e.text e.char_index = c :: B := by
      cases hd : byteDrop e.text e.char_index with
      | nil => exact absurd hd (byteDrop_ne_nil e.text e.char_index hb hplt)
      | cons c B => exact ⟨c, B, rfl⟩
    have hnext := next_char_index_formula e hb c B hcB
    have hcur := move_right_cursor_lt e h1
    have hple : e.char_index + csize c ≤ e.current_line.stop :=
      char_fits e.text e.char_index e.current_line.stop c B hcB hb hbe hpstop
    have hbnew : isCharBoundary e.text (e.char_index + csize c) = true :=
      boundary_after_char e.text e.char_index c B hcB hb
    have hclr : (e.move_right).current_line = e.current_line := by
      unfold Editor.current_line
      rw [move_right_lines, hcur]
    refine ⟨?_, ?_, ?_⟩
    · rw [move_right_lines, hcur]
      exact hlt
    · rw [hclr, hcur, hnext]
      show e.char_index + csize c - e.current_line.start ≤ e.current_line.len
      unfold Line.len
      omega
    · show isCharBoundary (e.move_right).text
        ((e.move_right).current_line.start + (e.move_right).cursor.column) = true
      rw [move_right_text, hclr, hcur, hnext]
      show isCharBoundary e.text
        (e.current_line.start + (e.char_index + csize c - e.current_line.start)) = true
      rw [show e.current_line.start + (e.char_index + csize c - e.current_line.start) =
        e.char_index + csize c from by omega]
      exact hbnew
  · by_cases h2 : e.cursor.line < e.lines.length - 1
    · have hcur := move_right_cursor_wrap e h1 h2
      have hget2 := lines_get?_getD e.lines (e.cursor.line + 1) (by omega)
      obtain ⟨_, hbs2, _, _⟩ :=
        chain_elem hch (e.lines.getD (e.cursor.line + 1) ⟨0, 0⟩) (List.get?_mem hget2)
      have hclr : (e.move_right).current_line = e.lines.getD (e.cursor.line + 1) ⟨0, 0⟩ := by
        unfold Editor.current_line
        rw [move_right_lines, hcur]
      refine ⟨?_, ?_, ?_⟩
      · rw [move_right_lines, hcur]
        show e.cursor.line + 1 < e.lines.length
        omega
      · rw [hclr, hcur]
        exact Nat.zero_le _
      · show isCharBoundary (e.move_right).text
          ((e.move_right).current_line.start + (e.move_right).cursor.column) = true
        rw [move_right_text, hclr, hcur]
        show isCharBoundary e.text
          ((e.lines.getD (e.cursor.line + 1) ⟨0, 0⟩).start + 0) = true
        rw [Nat.add_zero]
        exact hbs2
    · have hcur := move_right_cursor_id e h1 h2
      have hclr : (e.move_right).current_line = e.current_line := by
        unfold Editor.current_line
        rw [move_right_lines, hcur]
      refine ⟨?_, ?_, ?_⟩
      · rw [move_right_lines, hcur]
        exact hlt
      · rw [hclr, hcur]
        exact hcol
      · show isCharBoundary (e.move_right).text
          ((e.move_right).current_line.start + (e.move_right).cursor.column) = true
        rw [move_right_text, hclr, hcur]
        exact hb

@[simp] theorem move_up_text (e : Editor) (n : Nat) : (e.move_up n).text = e.text := rfl
@[simp] theorem move_up_lines (e : Editor) (n : Nat) : (e.move_up n).lines = e.lines := rfl
@[simp] theorem move_down_text (e : Editor) (n : Nat) : (e.move_down n).text = e.text := rfl
@[simp] theorem move_down_lines (e : Editor) (n : Nat) : (e.move_down n).lines = e.lines := rfl
@[simp] theorem move_home_text (e : Editor) : (e.move_home).text = e.text := rfl
@[simp] theorem move_home_lines (e : Editor) : (e.move_home).lines = e.lines := rfl
@[simp] theorem move_end_text (e : Editor) : (e.move_end).text = e.text := rfl
@[simp] theorem move_end_lines (e : Editor) : (e.move_end).lines = e.lines := rfl

/-- In-range indexed element of an appended cons, as `getD`. -/
theorem getD_append_cons (D : List Line) (l : Line) (R : List Line) :
    (D ++ l :: R).getD D.length ⟨0, 0⟩ = l := by
  have h1 := get?_append_cons D l R
  have h2 := lines_get?_getD (D ++ l :: R) D.length (by rw [List.length_append]; simp)
  rw [h1] at h2
  injection h2 with h
  exact h.symm

/-- The cursor's line is the unique line of a split containing its byte offset. -/
theorem cursor_line_locate (e : Editor) (hl : LinesOK e) (hlt : e.cursor.line < e.lines.length)
    (hcol : e.cursor.column ≤ e.current_line.len)
    (D : List Line) (l : Line) (R' : List Line)
    (hdec : e.lines = D ++ l :: R')
    (hs : l.start ≤ e.char_index) (he : e.char_index ≤ l.stop) :
    e.cursor.line = D.length ∧ e.current_line = l := by
  have hch : ChainFrom e.text 0 e.lines := by rw [hl]; exact find_lines_chain e.text
  have hget := current_line_get? e hlt
  have hget2 : e.lines.get? D.length = some l := by
    rw [hdec]
    exact get?_append_cons D l R'
  have hcont1 : e.current_line.start ≤ e.char_index := Nat.le_add_right _ _
  have hcont2 : e.char_index ≤ e.current_line.stop := by
    have hss := (chain_elem hch e.current_line (List.get?_mem hget)).1
    show e.current_line.start + e.cursor.column ≤ _
    unfold Line.len at hcol
    omega
  have hk := chain_unique hch e.char_index _ _ _ _ hget hget2 hcont1 hcont2 hs he
  refine ⟨hk, ?_⟩
  rw [hk] at hget
  rw [hget2] at hget
  injection hget with h
  exact h.symm

/-- `move_left` preserves the cursor invariant. -/
theorem wf_move_left (e : Editor) (hl : LinesOK e) (hc : CursorInv e) :
    CursorInv (e.move_left) := by
  obtain ⟨hlt, hcol, hb⟩ := hc
  have hch : ChainFrom e.text 0 e.lines := by rw [hl]; exact find_lines_chain e.text
  have hget := current_line_get? e hlt
  obtain ⟨hse, hbs, hbe, hstople⟩ := chain_elem hch e.current_line (List.get?_mem hget)
  have hci_le : e.char_index ≤ utf8Len e.text := isCharBoundary_le _ _ hb
  have hpeq : e.char_index = e.current_line.start + e.cursor.column := rfl
  by_cases h1 : 0 < e.cursor.column
  · have hp0 : 0 < e.char_index := by omega
    obtain ⟨q, d, hqd⟩ : ∃ q d, byteTake e.text e.char_index = q ++ [d] := by
      rcases List.eq_nil_or_concat (byteTake e.text e.char_index) with hnil | ⟨q, d, h⟩
      · exfalso
        have hA : utf8Len (byteTake e.text e.char_index) = e.char_index :=
          utf8Len_byteTake _ _ hb
        rw [hnil] at hA
        simp at hA
        omega
      · exact ⟨q, d, by rw [h, List.concat_eq_append]⟩
    have hprev := prev_char_index_formula e q d hqd
    have hA : utf8Len (byteTake e.text e.char_index) = e.char_index := utf8Len_byteTake _ _ hb
    have hqlen : utf8Len q + csize d = e.char_index := by
      rw [hqd, utf8Len_append] at hA
      simp at hA
      omega
    have ht : q ++ d :: byteDrop e.text e.char_index = e.text := by
      have hsp := byteTake_append_byteDrop e.text e.char_index
      rw [hqd] at hsp
      calc q ++ d :: byteDrop e.text e.char_index
          = q ++ [d] ++ byteDrop e.text e.char_index := by simp
        _ = e.text := hsp
    have hbprev : isCharBoundary e.text (utf8Len q) = true := by
      have step := isCharBoundary_append_len q (d :: byteDrop e.text e.char_index)
      rw [ht] at step
      exact step
    have hdropq : byteDrop e.text (utf8Len q) = d :: byteDrop e.text e.char_index := by
      have step := byteDrop_append_len q (d :: byteDrop e.text e.char_index)
      rw [ht] at step
      exact step
    have hstart_le : e.current_line.start ≤ utf8Len q := by
      by_contra hcon
      have hfit := char_fits e.text (utf8Len q) e.current_line.start d _ hdropq hbprev hbs
        (by omega)
      omega
    have hcur := move_left_cursor_pos e h1
    have hclr : (e.move_left).current_line = e.current_line := by
      unfold Editor.current_line
      rw [move_left_lines, hcur]
    have hstop_ge : e.char_index ≤ e.current_line.stop := by
      unfold Line.len at hcol
      omega
    have hprevlt : utf8Len q < e.char_index := by
      have := csize_pos d
      omega
    refine ⟨?_, ?_, ?_⟩
    · rw [move_left_lines, hcur]
      exact hlt
    · rw [hclr, hcur, hprev]
      show utf8Len q - e.current_line.start ≤ e.current_line.len
      unfold Line.len
      omega
    · show isCharBoundary (e.move_left).text
        ((e.move_left).current_line.start + (e.move_left).cursor.column) = true
      rw [move_left_text, hclr, hcur, hprev]
      show isCharBoundary e.text
        (e.current_line.start + (utf8Len q - e.current_line.start)) = true
      rw [show e.current_line.start + (utf8Len q - e.current_line.start) = utf8Len q from by
        omega]
      exact hbprev
  · by_cases h2 : 0 < e.cursor.line
    · have hcur := move_left_cursor_wrap e h1 h2
      have hget2 := lines_get?_getD e.lines (e.cursor.line - 1) (by omega)
      obtain ⟨hse2, hbs2, hbe2, _⟩ :=
        chain_elem hch (e.lines.getD (e.cursor.line - 1) ⟨0, 0⟩) (List.get?_mem hget2)
      have hclr : (e.move_left).current_line = e.lines.getD (e.cursor.line - 1) ⟨0, 0⟩ := by
        unfold Editor.current_line
        rw [move_left_lines, hcur]
      refine ⟨?_, ?_, ?_⟩
      · rw [move_left_lines, hcur]
        show e.cursor.line - 1 < e.lines.length
        omega
      · rw [hclr, hcur]
      · show isCharBoundary (e.move_left).text
          ((e.move_left).current_line.start + (e.move_left).cursor.column) = true
        rw [move_left_text, hclr, hcur]
        show isCharBoundary e.text
          ((e.lines.getD (e.cursor.line - 1) ⟨0, 0⟩).start +
            (e.lines.getD (e.cursor.line - 1) ⟨0, 0⟩).len) = true
        rw [show (e.lines.getD (e.cursor.line - 1) ⟨0, 0⟩).start +
            (e.lines.getD (e.cursor.line - 1) ⟨0, 0⟩).len =
            (e.lines.getD (e.cursor.line - 1) ⟨0, 0⟩).stop from by unfold Line.len; omega]
        exact hbe2
    · have hcur := move_left_cursor_id e h1 h2
      have hclr : (e.move_left).current_line = e.current_line := by
        unfold Editor.current_line
        rw [move_left_lines, hcur]
      refine ⟨?_, ?_, ?_⟩
      · rw [move_left_lines, hcur]
        exact hlt
      · rw [hclr, hcur]
        exact hcol
      · show isCharBoundary (e.move_left).text
          ((e.move_left).current_line.start + (e.move_left).cursor.column) = true
        rw [move_left_text, hclr, hcur]
        exact hb

/-- `move_home` preserves the cursor invariant. -/
theorem wf_move_home (e : Editor) (hl : LinesOK e) (hc : CursorInv e) :
    CursorInv (e.move_home) := by
  obtain ⟨hlt, hcol, hb⟩ := hc
  have hch : ChainFrom e.text 0 e.lines := by rw [hl]; exact find_lines_chain e.text
  have hget := current_line_get? e hlt
  obtain ⟨hse, hbs, hbe, hstople⟩ := chain_elem hch e.current_line (List.get?_mem hget)
  have hclr : (e.move_home).current_line = e.current_line := rfl
  refine ⟨hlt, ?_, ?_⟩
  · rw [hclr]
    exact Nat.zero_le _
  · show isCharBoundary e.text (e.current_line.start + 0) = true
    rw [Nat.add_zero]
    exact hbs

/-- The column set by `move_end` is already on a boundary, so its heal is a
no-op: the end of the current line is a character boundary. -/
theorem move_end_heal_noop (e : Editor) (hl : LinesOK e) (hc : CursorInv e) :
    ensureBoundaryAux e.text e.current_line.start e.current_line.len = e.current_line.len := by
  obtain ⟨hlt, hcol, hb⟩ := hc
  have hch : ChainFrom e.text 0 e.lines := by rw [hl]; exact find_lines_chain e.text
  have hget := current_line_get? e hlt
  obtain ⟨hse, hbs, hbe, hstople⟩ := chain_elem hch e.current_line (List.get?_mem hget)
  apply ensureBoundaryAux_of_boundary
  rw [show e.current_line.start + e.current_line.len = e.current_line.stop from by
    unfold Line.len; omega]
  exact hbe

/-- `move_end` preserves the cursor invariant. -/
theorem wf_move_end (e : Editor) (hl : LinesOK e) (hc : CursorInv e) :
    CursorInv (e.move_end) := by
  have hcur : (e.move_end).cursor =
      ⟨e.cursor.line, ensureBoundaryAux e.text e.current_line.start e.current_line.len⟩ := rfl
  obtain ⟨hlt, hcol, hb⟩ := hc
  have hch : ChainFrom e.text 0 e.lines := by rw [hl]; exact find_lines_chain e.text
  have hget := current_line_get? e hlt
  obtain ⟨hse, hbs, hbe, hstople⟩ := chain_elem hch e.current_line (List.get?_mem hget)
  have hnoop := move_end_heal_noop e hl ⟨hlt, hcol, hb⟩
  have hclr : (e.move_end).current_line = e.current_line := by
    unfold Editor.current_line
    rw [move_end_lines, hcur]
  refine ⟨?_, ?_, ?_⟩
  · rw [move_end_lines, hcur]
    exact hlt
  · rw [hclr, hcur, hnoop]
  · show isCharBoundary (e.move_end).text
      ((e.move_end).current_line.start + (e.move_end).cursor.column) = true
    rw [move_end_text, hclr, hcur, hnoop]
    show isCharBoundary e.text (e.current_line.start + e.current_line.len) = true
    rw [show e.current_line.start + e.current_line.len = e.current_line.stop from by
      unfold Line.len; omega]
    exact hbe

/-- `move_down` preserves the cursor invariant. -/
theorem wf_move_down (e : Editor) (hl : LinesOK e) (hc : CursorInv e) (n : Nat) :
    CursorInv (e.move_down n) := by
  obtain ⟨hlt, hcol, hb⟩ := hc
  have hch : ChainFrom e.text 0 e.lines := by rw [hl]; exact find_lines_chain e.text
  have hpos : 0 < e.lines.length := List.length_pos.mpr (chain_ne_nil hch)
  have hL : min (e.cursor.line + n) (e.lines.length - 1) < e.lines.length := by
    have := Nat.min_le_right (e.cursor.line + n) (e.lines.length - 1)
    omega
  have hget := lines_get?_getD e.lines _ hL
  obtain ⟨hse2, hbs2, _, _⟩ := chain_elem hch _ (List.get?_mem hget)
  have hcur := move_down_cursor e n
  have hclr : (e.move_down n).current_line =
      e.lines.getD (min (e.cursor.line + n) (e.lines.length - 1)) ⟨0, 0⟩ := by
    unfold Editor.current_line
    rw [move_down_lines, hcur]
  refine ⟨?_, ?_, ?_⟩
  · rw [move_down_lines, hcur]
    exact hL
  · rw [hclr, hcur]
    show ensureBoundaryAux _ _ _ ≤ _
    exact Nat.le_trans (ensureBoundaryAux_le _ _ _) (Nat.min_le_right _ _)
  · show isCharBoundary (e.move_down n).text
      ((e.move_down n).current_line.start + (e.move_down n).cursor.column) = true
    rw [move_down_text, hclr, hcur]
    exact ensureBoundaryAux_boundary _ _ hbs2 _

/-- `move_up` preserves the cursor invariant. -/
theorem wf_move_up (e : Editor) (hl : LinesOK e) (hc : CursorInv e) (n : Nat) :
    CursorInv (e.move_up n) := by
  obtain ⟨hlt, hcol, hb⟩ := hc
  have hch : ChainFrom e.text 0 e.lines := by rw [hl]; exact find_lines_chain e.text
  have hL : e.cursor.line - n < e.lines.length := by omega
  have hget := lines_get?_getD e.lines _ hL
  obtain ⟨hse2, hbs2, _, _⟩ := chain_elem hch _ (List.get?_mem hget)
  have hcur := move_up_cursor e n
  have hclr : (e.move_up n).current_line = e.lines.getD (e.cursor.line - n) ⟨0, 0⟩ := by
    unfold Editor.current_line
    rw [move_up_lines, hcur]
  refine ⟨?_, ?_, ?_⟩
  · rw [move_up_lines, hcur]
    exact hL
  · rw [hclr, hcur]
    show ensureBoundaryAux _ _ _ ≤ _
    exact Nat.le_trans (ensureBoundaryAux_le _ _ _) (Nat.min_le_right _ _)
  · show isCharBoundary (e.move_up n).text
      ((e.move_up n).current_line.start + (e.move_up n).cursor.column) = true
    rw [move_up_text, hclr, hcur]
    exact ensureBoundaryAux_boundary _ _ hbs2 _

/-- `move_to_byte` at an in-range boundary establishes the cursor invariant. -/
theorem wf_move_to_byte (e : Editor) (pos : Nat) (hl : LinesOK e)
    (hpos : pos ≤ utf8Len e.text) (hbp : isCharBoundary e.text pos = true) :
    CursorInv (e.move_to_byte pos) := by
  obtain ⟨i, l, hi, ha, hb2, hcur⟩ := move_to_byte_spec e pos hl hpos
  have hilt : i < e.lines.length := by
    by_contra hcon
    rw [List.get?_eq_none.mpr (by omega)] at hi
    exact absurd hi (by simp)
  have hclr : (e.move_to_byte pos).current_line = l := by
    unfold Editor.current_line
    rw [lines_move_to_byte, hcur]
    show e.lines.getD i ⟨0, 0⟩ = l
    have hgd := lines_get?_getD e.lines i hilt
    rw [hi] at hgd
    injection hgd with h
    exact h.symm
  refine ⟨?_, ?_, ?_⟩
  · rw [lines_move_to_byte, hcur]
    exact hilt
  · rw [hclr, hcur]
    show pos - l.start ≤ l.len
    unfold Line.len
    omega
  · show isCharBoundary (e.move_to_byte pos).text
      ((e.move_to_byte pos).current_line.start + (e.move_to_byte pos).cursor.column) = true
    rw [text_move_to_byte, hclr, hcur]
    show isCharBoundary e.text (l.start + (pos - l.start)) = true
    rw [show l.start + (pos - l.start) = pos from by omega]
    exact hbp

/-- `insert_char` preserves line-index consistency and the cursor invariant. -/
theorem wf_insert_char (e : Editor) (hl : LinesOK e) (hc : CursorInv e) (c : Char) :
    LinesOK (e.insert_char c) ∧ CursorInv (e.insert_char c) := by
  obtain ⟨hlt, hcol, hb⟩ := hc
  obtain ⟨D, sA, fn, R, hdec, hsle, hple, hins⟩ := lines_split_insert e.text e.char_index hb
  obtain ⟨hkeq, hline⟩ :=
    cursor_line_locate e hl hlt hcol D ⟨sA, fn⟩ R (by rw [hl]; exact hdec) hsle hple
  have hA : utf8Len (byteTake e.text e.char_index) = e.char_index := utf8Len_byteTake _ _ hb
  have hcol_eq : e.char_index = sA + e.cursor.column := by
    have hs : e.current_line.start = sA := by rw [hline]
    show e.current_line.start + e.cursor.column = sA + e.cursor.column
    omega
  have hbT1 : isCharBoundary
      (byteTake e.text e.char_index ++ c :: byteDrop e.text e.char_index)
      e.char_index = true := by
    have := isCharBoundary_append_len (byteTake e.text e.char_index)
      (c :: byteDrop e.text e.char_index)
    rwa [hA] at this
  have hE3 : CursorInv
      { e with unsaved_changes := true,
               text := byteTake e.text e.char_index ++ c :: byteDrop e.text e.char_index,
               lines := find_lines
                 (byteTake e.text e.char_index ++ c :: byteDrop e.text e.char_index) } := by
    by_cases hcn : c = '\n'
    · subst hcn
      have hfl : find_lines
          (byteTake e.text e.char_index ++ '\n' :: byteDrop e.text e.char_index) =
          D ++ ⟨sA, e.char_index⟩ :: ⟨e.char_index + 1, fn + 1⟩ ::
            R.map (fun x => (⟨x.start + csize '\n', x.stop + csize '\n'⟩ : Line)) := by
        rw [hins '\n', if_pos rfl]
        simp
      refine ⟨?_, ?_, ?_⟩
      · show e.cursor.line < (find_lines _).length
        rw [hfl, hkeq, List.length_append]
        simp
      · show e.cursor.column ≤ ((find_lines _).getD e.cursor.line ⟨0, 0⟩).len
        rw [hfl, hkeq, getD_append_cons]
        show e.cursor.column ≤ e.char_index - sA
        omega
      · show isCharBoundary _ (((find_lines _).getD e.cursor.line ⟨0, 0⟩).start +
          e.cursor.column) = true
        rw [hfl, hkeq, getD_append_cons]
        show isCharBoundary _ (sA + e.cursor.column) = true
        rw [← hcol_eq]
        exact hbT1
    · have hfl : find_lines
          (byteTake e.text e.char_index ++ c :: byteDrop e.text e.char_index) =
          D ++ ⟨sA, fn + csize c⟩ ::
            R.map (fun x => (⟨x.start + csize c, x.stop + csize c⟩ : Line)) := by
        rw [hins c, if_neg hcn]
        simp
      refine ⟨?_, ?_, ?_⟩
      · show e.cursor.line < (find_lines _).length
        rw [hfl, hkeq, List.length_append]
        simp
      · show e.cursor.column ≤ ((find_lines _).getD e.cursor.line ⟨0, 0⟩).len
        rw [hfl, hkeq, getD_append_cons]
        show e.cursor.column ≤ fn + csize c - sA
        omega
      · show isCharBoundary _ (((find_lines _).getD e.cursor.line ⟨0, 0⟩).start +
          e.cursor.column) = true
        rw [hfl, hkeq, getD_append_cons]
        show isCharBoundary _ (sA + e.cursor.column) = true
        rw [← hcol_eq]
        exact hbT1
  constructor
  · show LinesOK (e.insert_char c)
    unfold LinesOK
    rw [insert_char_eq, move_right_text, move_right_lines]
  · rw [insert_char_eq]
    exact wf_move_right _ rfl hE3

/-- Removing the character at the cursor (the body of `delete`, and of
`backspace` after its `move_left`) preserves the cursor invariant. -/
theorem wf_remove (e : Editor) (hl : LinesOK e) (hc : CursorInv e)
    (hlt2 : e.char_index < utf8Len e.text) :
    CursorInv { e with text := removeChar e.text e.char_index,
                       lines := find_lines (removeChar e.text e.char_index) } := by
  obtain ⟨hlt, hcol, hb⟩ := hc
  obtain ⟨d, B₂, hd⟩ : ∃ d B₂, byteDrop e.text e.char_index = d :: B₂ := by
    cases hdd : byteDrop e.text e.char_index with
    | nil => exact absurd hdd (byteDrop_ne_nil e.text e.char_index hb hlt2)
    | cons d B => exact ⟨d, B, rfl⟩
  have hA : utf8Len (byteTake e.text e.char_index) = e.char_index := utf8Len_byteTake _ _ hb
  have ht : byteTake e.text e.char_index ++ d :: B₂ = e.text := by
    rw [← hd]
    exact byteTake_append_byteDrop _ _
  have hrm : removeChar e.text e.char_index = byteTake e.text e.char_index ++ B₂ := by
    have step := removeChar_append_len (byteTake e.text e.char_index) d B₂
    rw [hA] at step
    rw [ht] at step
    exact step
  have hbt' : isCharBoundary (byteTake e.text e.char_index ++ B₂) e.char_index = true := by
    have := isCharBoundary_append_len (byteTake e.text e.char_index) B₂
    rwa [hA] at this
  obtain ⟨D, sA, fn, R, hdec, hsle, hple, hins⟩ :=
    lines_split_insert (byteTake e.text e.char_index ++ B₂) e.char_index hbt'
  have htk' : byteTake (byteTake e.text e.char_index ++ B₂) e.char_index =
      byteTake e.text e.char_index := byteTake_prefix_self _ _ _ hA
  have hdr' : byteDrop (byteTake e.text e.char_index ++ B₂) e.char_index = B₂ :=
    byteDrop_prefix_self _ _ _ hA
  have hold := hins d
  rw [htk', hdr', ht] at hold
  by_cases hdn : d = '\n'
  · subst hdn
    rw [if_pos rfl] at hold
    have hold' : find_lines e.text = D ++ ⟨sA, e.char_index⟩ ::
        (⟨e.char_index + 1, fn + 1⟩ ::
          R.map (fun x => (⟨x.start + csize '\n', x.stop + csize '\n'⟩ : Line))) := by
      rw [hold]
      simp
    obtain ⟨hkeq, hline⟩ := cursor_line_locate e hl hlt hcol D ⟨sA, e.char_index⟩ _
      (by rw [hl]; exact hold') hsle (Nat.le_refl _)
    have hcol_eq : e.char_index = sA + e.cursor.column := by
      have hs : e.current_line.start = sA := by rw [hline]
      show e.current_line.start + e.cursor.column = sA + e.cursor.column
      omega
    refine ⟨?_, ?_, ?_⟩
    · show e.cursor.line < (find_lines (removeChar e.text e.char_index)).length
      rw [hrm, hdec, hkeq, List.length_append]
      simp
    · show e.cursor.column ≤
        ((find_lines (removeChar e.text e.char_index)).getD e.cursor.line ⟨0, 0⟩).len
      rw [hrm, hdec, hkeq, getD_append_cons]
      show e.cursor.column ≤ fn - sA
      omega
    · show isCharBoundary (removeChar e.text e.char_index)
        (((find_lines (removeChar e.text e.char_index)).getD e.cursor.line ⟨0, 0⟩).start +
          e.cursor.column) = true
      rw [hrm, hdec, hkeq, getD_append_cons]
      show isCharBoundary (byteTake e.text e.char_index ++ B₂) (sA + e.cursor.column) = true
      rw [← hcol_eq]
      exact hbt'
  · rw [if_neg hdn] at hold
    have hold' : find_lines e.text = D ++ ⟨sA, fn + csize d⟩ ::
        R.map (fun x => (⟨x.start + csize d, x.stop + csize d⟩ : Line)) := by
      rw [hold]
      simp
    obtain ⟨hkeq, hline⟩ := cursor_line_locate e hl hlt hcol D ⟨sA, fn + csize d⟩ _
      (by rw [hl]; exact hold') hsle
      (by show e.char_index ≤ fn + csize d; have := csize_pos d; omega)
    have hcol_eq : e.char_index = sA + e.cursor.column := by
      have hs : e.current_line.start = sA := by rw [hline]
      show e.current_line.start + e.cursor.column = sA + e.cursor.column
      omega
    refine ⟨?_, ?_, ?_⟩
    · show e.cursor.line < (find_lines (removeChar e.text e.char_index)).length
      rw [hrm, hdec, hkeq, List.length_append]
      simp
    · show e.cursor.column ≤
        ((find_lines (removeChar e.text e.char_index)).getD e.cursor.line ⟨0, 0⟩).len
      rw [hrm, hdec, hkeq, getD_append_cons]
      show e.cursor.column ≤ fn - sA
      omega
    · show isCharBoundary (removeChar e.text e.char_index)
        (((find_lines (removeChar e.text e.char_index)).getD e.cursor.line ⟨0, 0⟩).start +
          e.cursor.column) = true
      rw [hrm, hdec, hkeq, getD_append_cons]
      show isCharBoundary (byteTake e.text e.char_index ++ B₂) (sA + e.cursor.column) = true
      rw [← hcol_eq]
      exact hbt'

/-- Removing at or past the end of the text changes nothing. -/
theorem removeChar_of_len_le (t : List Char) (n : Nat) (h : utf8Len t ≤ n) :
    removeChar t n = t := by
  induction t generalizing n with
  | nil => rfl
  | cons c cs ih =>
    have hc := csize_pos c
    simp only [utf8Len_cons] at h
    simp only [removeChar]
    rw [if_neg (by omega)]
    rw [ih (n - csize c) (by omega)]

/-- `delete` unfolded, at the document end. -/
theorem delete_eq_of_ge (x : Editor) (h : ¬x.char_index < utf8Len x.text) :
    x.delete = x := by
  unfold Editor.delete
  rw [if_neg h]

/-- `backspace` unfolded, at the document start. -/
theorem backspace_eq_of_zero (x : Editor) (h : ¬0 < x.char_index) :
    x.backspace = x := by
  unfold Editor.backspace
  rw [if_neg h]

/-- `backspace` preserves line-index consistency and the cursor invariant. -/
theorem wf_backspace (e : Editor) (hl : LinesOK e) (hc : CursorInv e) :
    LinesOK (e.backspace) ∧ CursorInv (e.backspace) := by
  by_cases h0 : 0 < e.char_index
  · have hml_l : LinesOK (e.move_left) := by
      unfold LinesOK
      rw [move_left_text, move_left_lines]
      exact hl
    have hml_c : CursorInv (e.move_left) := wf_move_left e hl hc
    rw [backspace_eq_of_pos e h0]
    constructor
    · unfold LinesOK
      rfl
    · by_cases h2 : (e.move_left).char_index < utf8Len (e.move_left).text
      · exact wf_remove (e.move_left) hml_l hml_c h2
      · have hle : (e.move_left).char_index ≤ utf8Len (e.move_left).text :=
          isCharBoundary_le _ _ hml_c.2.2
        have hid : removeChar (e.move_left).text (e.move_left).char_index =
            (e.move_left).text := removeChar_of_len_le _ _ (by omega)
        have hstate : { e.move_left with
            text := removeChar (e.move_left).text (e.move_left).char_index,
            lines := find_lines (removeChar (e.move_left).text (e.move_left).char_index) } =
            e.move_left := by
          rw [hid, ← hml_l]
        rw [hstate]
        exact hml_c
  · rw [backspace_eq_of_zero e h0]
    exact ⟨hl, hc⟩

/-- `delete` preserves line-index consistency and the cursor invariant. -/
theorem wf_delete (e : Editor) (hl : LinesOK e) (hc : CursorInv e) :
    LinesOK (e.delete) ∧ CursorInv (e.delete) := by
  by_cases h0 : e.char_index < utf8Len e.text
  · rw [delete_eq_of_lt e h0]
    exact ⟨rfl, wf_remove e hl hc h0⟩
  · rw [delete_eq_of_ge e h0]
    exact ⟨hl, hc⟩

/-- `copy` touches only the clipboard. -/
theorem wf_copy (e : Editor) (hl : LinesOK e) (hc : CursorInv e) :
    LinesOK (e.copy) ∧ CursorInv (e.copy) :=
  ⟨hl, hc⟩

/-- `save` never touches the text, lines or cursor. -/
theorem wf_save (e : Editor) (hc : CursorInv e) (pr : Option String) (ok : Bool) :
    CursorInv (e.save pr ok).1 := by
  unfold Editor.save
  cases e.path with
  | none =>
    cases pr with
    | none => exact hc
    | some p =>
      cases ok with
      | true => exact hc
      | false => exact hc
  | some p =>
    cases ok with
    | true => exact hc
    | false => exact hc

/-- `cut` re-establishes well-formedness in full. -/
theorem wf_cut (e : Editor) (hwf : WF e) : WF (e.cut) := by
  obtain ⟨hlines, ⟨hlt, hcol, hbci⟩, hmk⟩ := hwf
  have hch : ChainFrom e.text 0 e.lines := by rw [hlines]; exact find_lines_chain e.text
  have hbS : isCharBoundary e.text (e.selection_or_line).1 = true := by
    rcases hm : e.marker with _ | m
    · have hSE : e.selection_or_line = (e.current_line.start, e.current_line.stop) := by
        simp [Editor.selection_or_line, Editor.selection, hm]
      rw [hSE]
      have hget := current_line_get? e hlt
      exact (chain_elem hch e.current_line (List.get?_mem hget)).2.1
    · have hSE : e.selection_or_line = (min m e.char_index, max m e.char_index) := by
        simp [Editor.selection_or_line, Editor.selection, hm]
      rw [hSE]
      have hmk' : m ≤ utf8Len e.text ∧ isCharBoundary e.text m = true := by
        unfold markerOK at hmk
        rw [hm] at hmk
        simpa using hmk
      rcases Nat.le_total m e.char_index with h | h
      · rw [Nat.min_eq_left h]
        exact hmk'.2
      · rw [Nat.min_eq_right h]
        exact hbci
  have htk : utf8Len (byteTake e.text (e.selection_or_line).1) = (e.selection_or_line).1 :=
    utf8Len_byteTake _ _ hbS
  have hS_le : (e.selection_or_line).1 ≤ utf8Len (e.cut).text := by
    rw [cut_text, utf8Len_append, htk]
    omega
  have hS_bnd : isCharBoundary (e.cut).text (e.selection_or_line).1 = true := by
    rw [cut_text]
    have := isCharBoundary_append_len (byteTake e.text (e.selection_or_line).1)
      (byteDrop e.text (min (if e.marker = none then (e.selection_or_line).2 + 1
        else (e.selection_or_line).2) (utf8Len e.text)))
    rwa [htk] at this
  refine ⟨?_, ?_, ?_⟩
  · rfl
  · exact wf_move_to_byte
      { e with clipboard := (e.cut).clipboard, text := (e.cut).text,
               lines := (e.cut).lines }
      (e.selection_or_line).1 rfl hS_le hS_bnd
  · rfl

/-- `paste` re-establishes well-formedness in full. -/
theorem wf_paste (e : Editor) (hwf : WF e) : WF (e.paste) := by
  obtain ⟨hlines, ⟨hlt, hcol, hbci⟩, hmk⟩ := hwf
  have hA : utf8Len (byteTake e.text e.char_index) = e.char_index := utf8Len_byteTake _ _ hbci
  have hAC : utf8Len (byteTake e.text e.char_index ++ e.clipboard) =
      e.char_index + utf8Len e.clipboard := by
    rw [utf8Len_append, hA]
  have hend_le : e.char_index + utf8Len e.clipboard ≤ utf8Len (e.paste).text := by
    rw [paste_text, utf8Len_append, utf8Len_append, hA]
    omega
  have hend_bnd : isCharBoundary (e.paste).text
      (e.char_index + utf8Len e.clipboard) = true := by
    rw [paste_text]
    have := isCharBoundary_append_len (byteTake e.text e.char_index ++ e.clipboard)
      (byteDrop e.text e.char_index)
    rwa [hAC] at this
  refine ⟨?_, ?_, ?_⟩
  · rfl
  · exact wf_move_to_byte
      { e with unsaved_changes := true,
               text := byteTake e.text e.char_index ++ e.clipboard ++
                 byteDrop e.text e.char_index,
               lines := find_lines (byteTake e.text e.char_index ++ e.clipboard ++
                 byteDrop e.text e.char_index) }
      (e.char_index + utf8Len e.clipboard) rfl hend_le hend_bnd
  · rfl

/-- C9. Every public operation preserves the cursor invariant (line index in
range, column within the current line's byte length, cursor byte position on a
UTF-8 character boundary), starting from any well-formed state; and the
defensive boundary self-heal is a no-op at its only call site outside the
vertical moves (`move_end`): the end of the current line is already a
boundary.  Only `move_up`/`move_down` can invoke the heal nontrivially. -/
theorem ops_preserve_cursor_invariant (e : Editor) (hwf : WF e) :
    CursorInv (e.move_left) ∧ CursorInv (e.move_right) ∧
    (∀ n, CursorInv (e.move_up n)) ∧ (∀ n, CursorInv (e.move_down n)) ∧
    CursorInv (e.move_home) ∧ CursorInv (e.move_end) ∧
    (∀ c, CursorInv (e.insert_char c)) ∧
    CursorInv (e.backspace) ∧ CursorInv (e.delete) ∧
    CursorInv (e.copy) ∧ CursorInv (e.cut) ∧ CursorInv (e.paste) ∧
    (∀ prompt_result create_ok, CursorInv (e.save prompt_result create_ok).1) ∧
    ensureBoundaryAux e.text e.current_line.start e.current_line.len = e.current_line.len := by
  obtain ⟨hl, hc, hmk⟩ := hwf
  exact ⟨wf_move_left e hl hc, wf_move_right e hl hc,
    fun n => wf_move_up e hl hc n, fun n => wf_move_down e hl hc n,
    wf_move_home e hl hc, wf_move_end e hl hc,
    fun c => (wf_insert_char e hl hc c).2,
    (wf_backspace e hl hc).2, (wf_delete e hl hc).2,
    (wf_copy e hl hc).2, (wf_cut e ⟨hl, hc, hmk⟩).2.1, (wf_paste e ⟨hl, hc, hmk⟩).2.1,
    fun pr ok => wf_save e hc pr ok,
    move_end_heal_noop e hl hc⟩

/-- C9 (witness): invariant preservation evaluated on "ab\ncd" for a movement
and an insertion. -/
theorem ops_preserve_cursor_invariant_witness :
    WF edABCD ∧ CursorInv (edABCD.move_left) ∧ CursorInv (edABCD.insert_char 'x') :=
  ⟨by decide, (ops_preserve_cursor_invariant edABCD (by decide)).1,
   (ops_preserve_cursor_invariant edABCD (by decide)).2.2.2.2.2.2.1 'x'⟩

/-- C8. On a well-formed state, `insert_char(c)` (any character, newline
included) immediately followed by `backspace()` restores the Text and the
cursor's (line, column) position exactly. -/
theorem insert_backspace_roundtrip (e : Editor) (hwf : WF e) (c : Char) :
    ((e.insert_char c).backspace).text = e.text ∧
    ((e.insert_char c).backspace).cursor = e.cursor := by
  obtain ⟨hl, ⟨hlt, hcol, hb⟩, hmk⟩ := hwf
  have hcp := csize_pos c
  obtain ⟨D, sA, fn, R, hdec, hsle, hple, hins⟩ := lines_split_insert e.text e.char_index hb
  obtain ⟨hkeq, hline⟩ :=
    cursor_line_locate e hl hlt hcol D ⟨sA, fn⟩ R (by rw [hl]; exact hdec) hsle hple
  have hA : utf8Len (byteTake e.text e.char_index) = e.char_index := utf8Len_byteTake _ _ hb
  have hcol_eq : e.char_index = sA + e.cursor.column := by
    have hs : e.current_line.start = sA := by rw [hline]
    show e.current_line.start + e.cursor.column = sA + e.cursor.column
    omega
  have hbT1 : isCharBoundary
      (byteTake e.text e.char_index ++ c :: byteDrop e.text e.char_index)
      e.char_index = true := by
    have := isCharBoundary_append_len (byteTake e.text e.char_index)
      (c :: byteDrop e.text e.char_index)
    rwa [hA] at this
  have hins_eq := insert_char_eq e c
  set T1 := byteTake e.text e.char_index ++ c :: byteDrop e.text e.char_index with hT1
  set E3 : Editor := { e with unsaved_changes := true, text := T1,
                              lines := find_lines T1 } with hE3
  rw [hins_eq]
  have hE3text : E3.text = T1 := by rw [hE3]
  have hE3lines : E3.lines = find_lines T1 := by rw [hE3]
  have hE3cursor : E3.cursor = e.cursor := by rw [hE3]
  have hrmT1 : removeChar T1 e.char_index = e.text := by
    rw [hT1]
    have step := removeChar_append_len (byteTake e.text e.char_index) c
      (byteDrop e.text e.char_index)
    rw [hA] at step
    rw [step]
    exact byteTake_append_byteDrop e.text e.char_index
  by_cases hcn : c = '\n'
  · subst hcn
    have hfl : find_lines T1 = D ++ ⟨sA, e.char_index⟩ :: ⟨e.char_index + 1, fn + 1⟩ ::
        R.map (fun x => (⟨x.start + csize '\n', x.stop + csize '\n'⟩ : Line)) := by
      rw [hT1, hins '\n', if_pos rfl]
      simp
    have hclE3 : E3.current_line = ⟨sA, e.char_index⟩ := by
      unfold Editor.current_line
      rw [hE3lines, hE3cursor, hfl, hkeq]
      exact getD_append_cons _ _ _
    have h1 : ¬E3.cursor.column < E3.current_line.len := by
      rw [hclE3, hE3cursor]
      show ¬e.cursor.column < e.char_index - sA
      omega
    have h2 : E3.cursor.line < E3.lines.length - 1 := by
      rw [hE3lines, hE3cursor, hfl, hkeq, List.length_append]
      simp only [List.length_cons, List.length_map]
      omega
    have hcur4 := move_right_cursor_wrap E3 h1 h2
    rw [hE3cursor] at hcur4
    have hE4text : (E3.move_right).text = T1 := by rw [move_right_text, hE3text]
    have hE4lines : (E3.move_right).lines = find_lines T1 := by
      rw [move_right_lines, hE3lines]
    have hclE4 : (E3.move_right).current_line = ⟨e.char_index + 1, fn + 1⟩ := by
      unfold Editor.current_line
      rw [hE4lines, hcur4]
      show (find_lines T1).getD (e.cursor.line + 1) ⟨0, 0⟩ = _
      rw [hfl, hkeq]
      have hsplit2 : D ++ ⟨sA, e.char_index⟩ :: ⟨e.char_index + 1, fn + 1⟩ ::
          R.map (fun x => (⟨x.start + csize '\n', x.stop + csize '\n'⟩ : Line)) =
          (D ++ [⟨sA, e.char_index⟩]) ++ ⟨e.char_index + 1, fn + 1⟩ ::
          R.map (fun x => (⟨x.start + csize '\n', x.stop + csize '\n'⟩ : Line)) := by
        simp
      rw [hsplit2, show D.length + 1 = (D ++ [(⟨sA, e.char_index⟩ : Line)]).length from by simp]
      exact getD_append_cons _ _ _
    have hE4ci : (E3.move_right).char_index = e.char_index + 1 := by
      show (E3.move_right).current_line.start + (E3.move_right).cursor.column = _
      rw [hclE4, hcur4]
      show e.char_index + 1 + 0 = _
      omega
    have h0 : 0 < (E3.move_right).char_index := by
      rw [hE4ci]
      omega
    rw [backspace_eq_of_pos _ h0]
    have hnotpos : ¬0 < (E3.move_right).cursor.column := by
      rw [hcur4]
      show ¬0 < 0
      simp
    have hlinepos : 0 < (E3.move_right).cursor.line := by
      rw [hcur4]
      show 0 < e.cursor.line + 1
      omega
    have hcurml := move_left_cursor_wrap (E3.move_right) hnotpos hlinepos
    rw [hcur4, hE4lines] at hcurml
    have hcurml' : ((E3.move_right).move_left).cursor =
        ⟨e.cursor.line, e.char_index - sA⟩ := by
      rw [hcurml]
      show (⟨e.cursor.line + 1 - 1,
        ((find_lines T1).getD (e.cursor.line + 1 - 1) ⟨0, 0⟩).len⟩ : Cursor) = _
      rw [show e.cursor.line + 1 - 1 = e.cursor.line from rfl, hfl, hkeq, getD_append_cons]
      rfl
    have hmltext : ((E3.move_right).move_left).text = T1 := by
      rw [move_left_text, hE4text]
    have hmllines : ((E3.move_right).move_left).lines = find_lines T1 := by
      rw [move_left_lines, hE4lines]
    have hclml : ((E3.move_right).move_left).current_line = ⟨sA, e.char_index⟩ := by
      unfold Editor.current_line
      rw [hmllines, hcurml']
      show (find_lines T1).getD e.cursor.line ⟨0, 0⟩ = _
      rw [hfl, hkeq]
      exact getD_append_cons _ _ _
    have hmlci : ((E3.move_right).move_left).char_index = e.char_index := by
      show ((E3.move_right).move_left).current_line.start +
        ((E3.move_right).move_left).cursor.column = _
      rw [hclml, hcurml']
      show sA + (e.char_index - sA) = _
      omega
    constructor
    · show removeChar ((E3.move_right).move_left).text
        ((E3.move_right).move_left).char_index = e.text
      rw [hmltext, hmlci]
      exact hrmT1
    · show ((E3.move_right).move_left).cursor = e.cursor
      rw [hcurml']
      have hc2 : e.char_index - sA = e.cursor.column := by omega
      rw [hc2]
  · have hfl : find_lines T1 = D ++ ⟨sA, fn + csize c⟩ ::
        R.map (fun x => (⟨x.start + csize c, x.stop + csize c⟩ : Line)) := by
      rw [hT1, hins c, if_neg hcn]
      simp
    have hclE3 : E3.current_line = ⟨sA, fn + csize c⟩ := by
      unfold Editor.current_line
      rw [hE3lines, hE3cursor, hfl, hkeq]
      exact getD_append_cons _ _ _
    have hE3ci : E3.char_index = e.char_index := by
      show E3.current_line.start + E3.cursor.column = _
      rw [hclE3, hE3cursor]
      show sA + e.cursor.column = _
      omega
    have h1 : E3.cursor.column < E3.current_line.len := by
      rw [hclE3, hE3cursor]
      show e.cursor.column < fn + csize c - sA
      omega
    have hb3 : isCharBoundary E3.text E3.char_index = true := by
      rw [hE3text, hE3ci]
      exact hbT1
    have hdrop3 : byteDrop E3.text E3.char_index = c :: byteDrop e.text e.char_index := by
      rw [hE3text, hE3ci, hT1]
      exact byteDrop_prefix_self _ _ _ hA
    have hnext := next_char_index_formula E3 hb3 c _ hdrop3
    have hcur4 := move_right_cursor_lt E3 h1
    rw [hnext, hE3ci, hclE3, hE3cursor] at hcur4
    have hcur4' : (E3.move_right).cursor =
        ⟨e.cursor.line, e.char_index + csize c - sA⟩ := by
      rw [hcur4]
    have hE4text : (E3.move_right).text = T1 := by rw [move_right_text, hE3text]
    have hE4lines : (E3.move_right).lines = find_lines T1 := by
      rw [move_right_lines, hE3lines]
    have hclE4 : (E3.move_right).current_line = ⟨sA, fn + csize c⟩ := by
      unfold Editor.current_line
      rw [hE4lines, hcur4']
      show (find_lines T1).getD e.cursor.line ⟨0, 0⟩ = _
      rw [hfl, hkeq]
      exact getD_append_cons _ _ _
    have hE4ci : (E3.move_right).char_index = e.char_index + csize c := by
      show (E3.move_right).current_line.start + (E3.move_right).cursor.column = _
      rw [hclE4, hcur4']
      show sA + (e.char_index + csize c - sA) = _
      omega
    have h0 : 0 < (E3.move_right).char_index := by
      rw [hE4ci]
      omega
    rw [backspace_eq_of_pos _ h0]
    have hmlcol : 0 < (E3.move_right).cursor.column := by
      rw [hcur4']
      show 0 < e.char_index + csize c - sA
      omega
    have hcurml := move_left_cursor_pos (E3.move_right) hmlcol
    have htk4 : byteTake (E3.move_right).text (E3.move_right).char_index =
        byteTake e.text e.char_index ++ [c] := by
      rw [hE4text, hE4ci]
      have hlen2 : utf8Len (byteTake e.text e.char_index ++ [c]) =
          e.char_index + csize c := by
        rw [utf8Len_append, hA]
        simp
      have hT1assoc : (byteTake e.text e.char_index ++ [c]) ++
          byteDrop e.text e.char_index = T1 := by
        rw [hT1]
        simp
      rw [← hT1assoc]
      exact byteTake_prefix_self _ _ _ hlen2
    have hprev := prev_char_index_formula (E3.move_right) _ c htk4
    rw [hA] at hprev
    rw [hprev, hclE4] at hcurml
    have hcurml' : ((E3.move_right).move_left).cursor =
        ⟨e.cursor.line, e.char_index - sA⟩ := by
      rw [hcurml, hcur4']
    have hmltext : ((E3.move_right).move_left).text = T1 := by
      rw [move_left_text, hE4text]
    have hclml : ((E3.move_right).move_left).current_line = ⟨sA, fn + csize c⟩ := by
      unfold Editor.current_line
      rw [move_left_lines, hE4lines, hcurml']
      show (find_lines T1).getD e.cursor.line ⟨0, 0⟩ = _
      rw [hfl, hkeq]
      exact getD_append_cons _ _ _
    have hmlci : ((E3.move_right).move_left).char_index = e.char_index := by
      show ((E3.move_right).move_left).current_line.start +
        ((E3.move_right).move_left).cursor.column = _
      rw [hclml, hcurml']
      show sA + (e.char_index - sA) = _
      omega
    constructor
    · show removeChar ((E3.move_right).move_left).text
        ((E3.move_right).move_left).char_index = e.text
      rw [hmltext, hmlci]
      exact hrmT1
    · show ((E3.move_right).move_left).cursor = e.cursor
      rw [hcurml']
      have hc2 : e.char_index - sA = e.cursor.column := by omega
      rw [hc2]

/-- C8 (witness): inserting 'x', 'é' and a newline into "ab\ncd" and
backspacing restores text and cursor. -/
theorem insert_backspace_roundtrip_witness :
    WF edABCD ∧ ((edABCD.insert_char '\n').backspace).text = edABCD.text ∧
    ((edABCD.insert_char 'é').backspace).cursor = edABCD.cursor :=
  ⟨by decide, (insert_backspace_roundtrip edABCD (by decide) '\n').1,
   (insert_backspace_roundtrip edABCD (by decide) 'é').2⟩
